import Mathlib

set_option maxHeartbeats 1000000

/-!
# Verification of the ginprov core against its specification

Shallow embedding of the ginprov server core (Go) in Lean 4.

Strings from the Go source are embedded as `List Char` (Go iterates them
rune-wise in every function modelled here; the only byte-level operation,
`strings.LastIndexByte(path, '.')`, agrees with the rune-level last index
because `.` cannot occur inside a multi-byte UTF-8 sequence).
-/

namespace Ginprov

/-! ## `sanitizeURL` (server/site.go)

`sanitizeURL` first calls `net/url.Parse`; everything after the parse only
uses `u.Path` and `u.RawQuery`.  The parse itself is external library code,
so the embedding is split: `sanitizeURLAux` is the faithful translation of
the code after the parse, and `sanitizeURL` is parameterised by the parse
function (`none` = parse error). -/

/-- `strings.ToLower` folds each rune by the Unicode simple case mapping.
Modelled exactly are the ASCII range `A`-`Z` and the only two code points
whose simple lowercase lands in ASCII: U+0130 (LATIN CAPITAL LETTER I WITH
DOT ABOVE → `i`) and U+212A (KELVIN SIGN → `k`).  Every other mapping
sends a non-ASCII character to a non-ASCII character, and the pipeline
treats the mapped and unmapped character identically: in the stem both are
collapsed to `-` by the `[^a-z0-9]` replacement, and in the extension both
fail every comparison against the all-ASCII extension literals — so
leaving those characters unmapped does not change any `sanitizeURL`
result. -/
def goLower (c : Char) : Char :=
  if 'A' ≤ c ∧ c ≤ 'Z' then Char.ofNat (c.toNat + 32)
  else if c = Char.ofNat 0x0130 then 'i'
  else if c = Char.ofNat 0x212A then 'k'
  else c

/-- The character class `[a-z0-9]` of `sanitizeRe`. -/
def isLowerAlnum (c : Char) : Bool :=
  ('a' ≤ c && c ≤ 'z') || ('0' ≤ c && c ≤ '9')

/-- One step of `sanitizeRe.ReplaceAllString(safe, "-")`: the pattern
`[^a-z0-9]` matches single runes, so the replacement maps each rune that is
not in `[a-z0-9]` to `-`. -/
def collapseChar (c : Char) : Char :=
  if isLowerAlnum c then c else '-'

/-- `strings.Trim(safe, "-")`: drop `-` from both ends. -/
def trimDashes (l : List Char) : List Char :=
  ((l.dropWhile (· == '-')).reverse.dropWhile (· == '-')).reverse

/-- `idx := strings.LastIndexByte(path, '.')`; on `idx >= 0` the code sets
`ext = path[idx:]` (including the dot) and `path = path[:idx]`.  Returns
`(path-before-last-dot, ext)`, with `ext = []` when there is no dot. -/
def extSplit (l : List Char) : List Char × List Char :=
  if l.contains '.' then
    (((l.reverse.dropWhile (fun c => c ≠ '.')).tail).reverse,
      '.' :: (l.reverse.takeWhile (fun c => c ≠ '.')).reverse)
  else (l, [])

/-- The body of `sanitizeURL` after `url.Parse` succeeded, taking `u.Path`
and `u.RawQuery` (server/site.go lines 414-455). -/
def sanitizeURLAux (path rawQuery : List Char) : List Char :=
  if path = [] then "index.html".toList
  else
    let lowered := path.map goLower
    let stem0 := (extSplit lowered).1
    let ext := (extSplit lowered).2
    let stem := if rawQuery = [] then stem0 else stem0 ++ '?' :: rawQuery.map goLower
    let safe := trimDashes (stem.map collapseChar)
    if safe = [] then "index.html".toList
    else if ext = ".jpg".toList ∨ ext = ".jpeg".toList ∨ ext = ".png".toList ∨
        ext = ".gif".toList ∨ ext = ".webp".toList ∨ ext = ".svg".toList then
      safe ++ ".jpg".toList
    else if ext = [] ∨ ext = ".html".toList ∨ ext = ".htm".toList then
      safe ++ ".html".toList
    else "data:".toList

/-- `sanitizeURL`, parameterised by the external `net/url.Parse`
(`parse v = some (path, rawQuery)` on success, `none` on error). -/
def sanitizeURL (parse : List Char → Option (List Char × List Char))
    (v : List Char) : List Char :=
  match parse v with
  | none => "data:".toList
  | some (p, q) => sanitizeURLAux p q

/-- `net/url.Parse` restricted to plain relative references: a string with
no scheme, query or fragment parses to itself as the path.  Used to
instantiate the `parse` parameter at concrete slug-shaped inputs. -/
def parseRel (s : List Char) : Option (List Char × List Char) := some (s, [])

/-- Characters a produced slug stem may contain. -/
def isSlugChar (c : Char) : Bool := isLowerAlnum c || c == '-'

/-- A well-formed slug: non-empty stem over `[a-z0-9-]`, no leading or
trailing `-`, followed by exactly one extension, `.html` or `.jpg`
(§3 of the spec; the stem contains no `.`, so the extension dot is the
only dot). -/
def IsSlug (l : List Char) : Prop :=
  ∃ stem ext, l = stem ++ ext ∧ stem ≠ [] ∧ (∀ c ∈ stem, isSlugChar c) ∧
    stem.head? ≠ some '-' ∧ stem.getLast? ≠ some '-' ∧
    (ext = ".html".toList ∨ ext = ".jpg".toList)

/-! ### List helper lemmas -/

theorem dropWhile_dash_head? (l : List Char) :
    (l.dropWhile (· == '-')).head? ≠ some '-' := by
  induction l with
  | nil => simp
  | cons c t ih =>
    rw [List.dropWhile_cons]
    by_cases h : c = '-'
    · simpa [h] using ih
    · simp [h]

theorem dropWhile_getLast?_or (p : Char → Bool) (l : List Char) :
    (l.dropWhile p).getLast? = l.getLast? ∨ l.dropWhile p = [] := by
  induction l with
  | nil => right; rfl
  | cons c t ih =>
    rw [List.dropWhile_cons]
    by_cases h : p c
    · rw [if_pos h]
      cases t with
      | nil => right; rfl
      | cons d u =>
        rcases ih with h' | h'
        · left; rw [h', List.getLast?_cons_cons]
        · right; exact h'
    · left; rw [if_neg h]

theorem trimDashes_head? (l : List Char) : (trimDashes l).head? ≠ some '-' := by
  unfold trimDashes
  rw [List.head?_reverse]
  rcases dropWhile_getLast?_or (· == '-') (l.dropWhile (· == '-')).reverse with h | h
  · rw [h, List.getLast?_reverse]
    exact dropWhile_dash_head? l
  · rw [h]; simp

theorem trimDashes_getLast? (l : List Char) : (trimDashes l).getLast? ≠ some '-' := by
  unfold trimDashes
  rw [List.getLast?_reverse]
  exact dropWhile_dash_head? (l.dropWhile (· == '-')).reverse

theorem mem_trimDashes (c : Char) (l : List Char) (h : c ∈ trimDashes l) : c ∈ l := by
  unfold trimDashes at h
  rw [List.mem_reverse] at h
  have h1 := List.Sublist.mem h (List.dropWhile_sublist (· == '-'))
  rw [List.mem_reverse] at h1
  exact List.Sublist.mem h1 (List.dropWhile_sublist (· == '-'))

theorem dropWhile_dash_eq_self (l : List Char) (h : l.head? ≠ some '-') :
    l.dropWhile (· == '-') = l := by
  cases l with
  | nil => rfl
  | cons c t =>
    have hc : ¬((c == '-') = true) := by
      intro hc
      exact h (by simp_all)
    rw [List.dropWhile_cons, if_neg hc]

theorem trimDashes_eq_self (l : List Char) (hh : l.head? ≠ some '-')
    (hl : l.getLast? ≠ some '-') : trimDashes l = l := by
  unfold trimDashes
  rw [dropWhile_dash_eq_self l hh]
  rw [dropWhile_dash_eq_self l.reverse (by rwa [List.head?_reverse])]
  exact List.reverse_reverse l

theorem takeWhile_append_of_all {α} (p : α → Bool) (xs : List α) (y : α) (ys : List α)
    (h : ∀ x ∈ xs, p x = true) (hy : p y = false) :
    (xs ++ y :: ys).takeWhile p = xs ∧ (xs ++ y :: ys).dropWhile p = y :: ys := by
  induction xs with
  | nil => simp [List.takeWhile_cons, List.dropWhile_cons, hy]
  | cons x xs ih =>
    have hx : p x = true := h x (List.mem_cons_self x xs)
    have ih' := ih (fun a ha => h a (List.mem_cons_of_mem x ha))
    simp only [List.cons_append, List.takeWhile_cons, List.dropWhile_cons, hx, if_true]
    exact ⟨by rw [ih'.1], ih'.2⟩

theorem map_eq_replicate_of_all {α β} (f : α → β) (l : List α) (d : β)
    (h : ∀ c ∈ l, f c = d) : l.map f = List.replicate l.length d := by
  induction l with
  | nil => rfl
  | cons c t ih =>
    rw [List.map_cons, h c (List.mem_cons_self c t),
      ih (fun a ha => h a (List.mem_cons_of_mem c ha)), List.length_cons,
      List.replicate_succ]

/-! ### Character lemmas -/

theorem slugChar_not_upper (c : Char) (h : isSlugChar c = true) :
    ¬('A' ≤ c ∧ c ≤ 'Z') := by
  unfold isSlugChar isLowerAlnum at h
  rintro ⟨h1, h2⟩
  simp only [Bool.or_eq_true, Bool.and_eq_true, decide_eq_true_eq, beq_iff_eq] at h
  rcases h with (⟨ha, _⟩ | ⟨_, hb⟩) | hc
  · exact absurd (le_trans ha h2) (by decide)
  · exact absurd (le_trans h1 hb) (by decide)
  · rw [hc] at h1; exact absurd h1 (by decide)

theorem slugChar_ne_dotlessI (c : Char) (h : isSlugChar c = true) :
    c ≠ Char.ofNat 0x0130 := by
  intro hc
  rw [hc] at h
  exact absurd h (by decide)

theorem slugChar_ne_kelvin (c : Char) (h : isSlugChar c = true) :
    c ≠ Char.ofNat 0x212A := by
  intro hc
  rw [hc] at h
  exact absurd h (by decide)

theorem goLower_slugChar (c : Char) (h : isSlugChar c = true) : goLower c = c := by
  unfold goLower
  rw [if_neg (slugChar_not_upper c h), if_neg (slugChar_ne_dotlessI c h),
    if_neg (slugChar_ne_kelvin c h)]

theorem collapseChar_slugChar (c : Char) (h : isSlugChar c = true) :
    collapseChar c = c := by
  unfold collapseChar
  by_cases ha : isLowerAlnum c
  · rw [if_pos ha]
  · unfold isSlugChar at h
    simp only [Bool.or_eq_true, beq_iff_eq] at h
    rcases h with h | h
    · exact absurd h ha
    · rw [if_neg ha, h]

theorem isSlugChar_collapseChar (c : Char) : isSlugChar (collapseChar c) = true := by
  unfold collapseChar
  by_cases ha : isLowerAlnum c
  · rw [if_pos ha]; unfold isSlugChar; rw [ha]; rfl
  · rw [if_neg ha]; decide

theorem slugChar_ne_dot (c : Char) (h : isSlugChar c = true) : c ≠ '.' := by
  intro hc
  rw [hc] at h
  exact absurd h (by decide)

/-! ### `extSplit` lemmas -/

theorem extSplit_of_no_dot (l : List Char) (h : '.' ∉ l) : extSplit l = (l, []) := by
  unfold extSplit
  rw [if_neg (by simpa using h)]

theorem extSplit_append (stem t : List Char) (_hs : '.' ∉ stem) (ht : '.' ∉ t) :
    extSplit (stem ++ '.' :: t) = (stem, '.' :: t) := by
  unfold extSplit
  rw [if_pos (by simp)]
  have hrev : (stem ++ '.' :: t).reverse = t.reverse ++ '.' :: stem.reverse := by simp
  have hall : ∀ x ∈ t.reverse, (fun c => decide (c ≠ '.')) x = true := by
    intro x hx
    simp only [decide_eq_true_eq]
    intro hxx
    exact ht (by rw [← hxx]; exact List.mem_reverse.mp hx)
  have hdot : (fun c => decide (c ≠ '.')) '.' = false := by simp
  have hsplit := takeWhile_append_of_all (fun c => decide (c ≠ '.')) t.reverse '.'
    stem.reverse hall hdot
  rw [hrev, hsplit.1, hsplit.2]
  simp

/-! ### Shape and fixed-point lemmas for `sanitizeURLAux` -/

theorem isSlug_indexHtml : IsSlug "index.html".toList :=
  ⟨"index".toList, ".html".toList, by decide, by decide, by decide, by decide,
    by decide, Or.inl rfl⟩

theorem isSlug_of_safe (safe : List Char) (hne : safe ≠ [])
    (hchars : ∀ c ∈ safe, isSlugChar c = true)
    (hh : safe.head? ≠ some '-') (hl : safe.getLast? ≠ some '-')
    (ext : List Char) (hext : ext = ".html".toList ∨ ext = ".jpg".toList) :
    IsSlug (safe ++ ext) := ⟨safe, ext, rfl, hne, hchars, hh, hl, hext⟩

/-- Every result of the post-parse computation is either the `data:`
sentinel or a well-formed slug. -/
theorem sanitizeURLAux_slug_or_data (p q : List Char) :
    sanitizeURLAux p q = "data:".toList ∨ IsSlug (sanitizeURLAux p q) := by
  unfold sanitizeURLAux
  by_cases hp : p = []
  · right; rw [if_pos hp]; exact isSlug_indexHtml
  · rw [if_neg hp]
    dsimp only
    set stem := (if q = [] then (extSplit (p.map goLower)).1
      else (extSplit (p.map goLower)).1 ++ '?' :: q.map goLower) with hstem
    set safe := trimDashes (stem.map collapseChar) with hsafe
    have hchars : ∀ c ∈ safe, isSlugChar c = true := by
      intro c hc
      have := mem_trimDashes c _ hc
      obtain ⟨y, _, rfl⟩ := List.mem_map.mp this
      exact isSlugChar_collapseChar y
    by_cases hempty : safe = []
    · right; rw [if_pos hempty]; exact isSlug_indexHtml
    · rw [if_neg hempty]
      split
      · right
        exact isSlug_of_safe safe hempty hchars (trimDashes_head? _)
          (trimDashes_getLast? _) _ (Or.inr rfl)
      · split
        · right
          exact isSlug_of_safe safe hempty hchars (trimDashes_head? _)
            (trimDashes_getLast? _) _ (Or.inl rfl)
        · left; rfl

theorem map_goLower_of_slug (l : List Char) (h : ∀ c ∈ l, isSlugChar c = true) :
    l.map goLower = l := by
  induction l with
  | nil => rfl
  | cons c t ih =>
    rw [List.map_cons, goLower_slugChar c (h c (List.mem_cons_self c t)),
      ih (fun a ha => h a (List.mem_cons_of_mem c ha))]

theorem map_collapseChar_of_slug (l : List Char) (h : ∀ c ∈ l, isSlugChar c = true) :
    l.map collapseChar = l := by
  induction l with
  | nil => rfl
  | cons c t ih =>
    rw [List.map_cons, collapseChar_slugChar c (h c (List.mem_cons_self c t)),
      ih (fun a ha => h a (List.mem_cons_of_mem c ha))]

/-- `sanitizeURLAux` is the identity on well-formed slugs (with no query). -/
theorem sanitizeURLAux_isSlug_fixed (l : List Char) (h : IsSlug l) :
    sanitizeURLAux l [] = l := by
  obtain ⟨stem, ext, rfl, hne, hchars, hh, hl, hext⟩ := h
  unfold sanitizeURLAux
  have hnil : stem ++ ext ≠ [] := fun hc => hne (List.append_eq_nil.mp hc).1
  rw [if_neg hnil]
  dsimp only
  have hnodot : '.' ∉ stem := fun hc => slugChar_ne_dot '.' (hchars '.' hc) rfl
  have hlow : (stem ++ ext).map goLower = stem ++ ext := by
    rw [List.map_append, map_goLower_of_slug stem hchars]
    rcases hext with h' | h' <;> rw [h'] <;> rfl
  rw [hlow]
  have hsplit : extSplit (stem ++ ext) = (stem, ext) := by
    rcases hext with h' | h' <;> rw [h']
    · exact extSplit_append stem "html".toList hnodot (by decide)
    · exact extSplit_append stem "jpg".toList hnodot (by decide)
  rw [hsplit]
  dsimp only
  rw [if_pos rfl, map_collapseChar_of_slug stem hchars, trimDashes_eq_self stem hh hl,
    if_neg hne]
  rcases hext with h' | h' <;> rw [h']
  · rw [if_neg (by decide), if_pos (by simp)]
  · rw [if_pos (by simp)]

/-! ### Claim theorems: C5, C6, C10 -/

/-- C5: `sanitizeURL` is idempotent on its non-sentinel range: whenever the
result is not the literal `data:`, applying `sanitizeURL` to it again
returns it unchanged.  The external `net/url.Parse` is the `parse`
parameter; the hypothesis records its documented behaviour on slug-shaped
strings (a bare relative path with no scheme, query or fragment parses to
itself as the path). -/
theorem sanitizeURL_idempotent (parse : List Char → Option (List Char × List Char))
    (hparse : ∀ s, IsSlug s → parse s = some (s, []))
    (x : List Char) (h : sanitizeURL parse x ≠ "data:".toList) :
    sanitizeURL parse (sanitizeURL parse x) = sanitizeURL parse x := by
  unfold sanitizeURL at h ⊢
  cases hp : parse x with
  | none => rw [hp] at h; exact absurd rfl h
  | some pq =>
    obtain ⟨p, q⟩ := pq
    rw [hp] at h
    have h' : sanitizeURLAux p q ≠ "data:".toList := h
    show (match parse (sanitizeURLAux p q) with
      | none => "data:".toList
      | some (p, q) => sanitizeURLAux p q) = sanitizeURLAux p q
    rcases sanitizeURLAux_slug_or_data p q with hd | hs
    · exact absurd hd h'
    · rw [hparse _ hs]
      exact sanitizeURLAux_isSlug_fixed _ hs

theorem sanitizeURL_idempotent_witness :
    sanitizeURL parseRel (sanitizeURL parseRel "abc".toList) =
      sanitizeURL parseRel "abc".toList :=
  sanitizeURL_idempotent parseRel (fun _ _ => rfl) "abc".toList (by decide)

/-- C6 counterexample: the claim says adjacent non-alphanumeric stem
characters collapse to a single `-`; on input path `a!!b` (which
`net/url.Parse` returns verbatim as the path, with no query) the run `!!`
produces two hyphens, `a--b.html`, not the single-hyphen `a-b.html` the
claim predicts. -/
theorem sanitize_run_two_dashes_counterexample :
    sanitizeURLAux "a!!b".toList [] = "a--b.html".toList ∧
    sanitizeURLAux "a!!b".toList [] ≠ "a-b.html".toList := by decide

/-- C6 amended: `sanitizeRe` (`[^a-z0-9]`) is replaced per character, not
per run: each non-alphanumeric stem character contributes its own `-`, so a
run of `k` such characters yields `k` consecutive hyphens (then
leading/trailing `-` are trimmed).  Stated for a stem `a⟨cs⟩b` whose middle
characters are fixed by the lowercasing (`goLower c = c`), are outside
`[a-z0-9]`, and are not the extension dot, so they reach the replacement
stage unchanged. -/
theorem sanitizeURLAux_dash_per_char (cs : List Char)
    (h : ∀ c ∈ cs, goLower c = c ∧ isLowerAlnum c = false ∧ c ≠ '.') :
    sanitizeURLAux ('a' :: cs ++ ['b']) [] =
      'a' :: List.replicate cs.length '-' ++ "b.html".toList := by
  unfold sanitizeURLAux
  rw [if_neg (by simp)]
  dsimp only
  have hlow : (('a' : Char) :: cs ++ ['b']).map goLower = 'a' :: cs ++ ['b'] := by
    rw [List.map_append, List.map_cons]
    have : cs.map goLower = cs := by
      induction cs with
      | nil => rfl
      | cons c t ih =>
        rw [List.map_cons, (h c (List.mem_cons_self c t)).1]
        rw [ih (fun a ha => h a (List.mem_cons_of_mem c ha))]
    rw [this]
    rfl
  rw [hlow]
  have hnodot : '.' ∉ ('a' : Char) :: cs ++ ['b'] := by
    intro hc
    rcases List.mem_cons.mp hc with hc' | hc'
    · exact absurd hc' (by decide)
    · rcases List.mem_append.mp hc' with hc'' | hc''
      · exact (h '.' hc'').2.2 rfl
      · exact absurd (List.mem_singleton.mp hc'') (by decide)
  rw [extSplit_of_no_dot _ hnodot]
  dsimp only
  rw [if_pos rfl]
  have hmap : (('a' : Char) :: cs ++ ['b']).map collapseChar =
      'a' :: List.replicate cs.length '-' ++ ['b'] := by
    rw [List.map_append, List.map_cons]
    rw [show collapseChar 'a' = 'a' from by decide,
      show (['b'] : List Char).map collapseChar = ['b'] from by decide]
    rw [map_eq_replicate_of_all collapseChar cs '-'
      (fun c hc => by unfold collapseChar; rw [if_neg (by rw [(h c hc).2.1]; simp)])]
  rw [hmap]
  have htrim : trimDashes ('a' :: List.replicate cs.length '-' ++ ['b']) =
      'a' :: List.replicate cs.length '-' ++ ['b'] := by
    apply trimDashes_eq_self
    · simp
    · rw [show ('a' : Char) :: List.replicate cs.length '-' ++ ['b'] =
        ('a' :: List.replicate cs.length '-') ++ ['b'] from by simp,
        List.getLast?_concat]
      decide
  rw [htrim, if_neg (by simp), if_neg (by decide), if_pos (by simp)]
  simp

theorem sanitizeURLAux_dash_per_char_witness :
    sanitizeURLAux ('a' :: ['!', '!'] ++ ['b']) [] =
      'a' :: List.replicate (['!', '!'] : List Char).length '-' ++ "b.html".toList :=
  sanitizeURLAux_dash_per_char ['!', '!'] (by decide)

/-- C10: for every parse behaviour and every input string, `sanitizeURL`
returns either the `data:` sentinel or a well-formed slug (non-empty
`[a-z0-9-]` stem, no leading/trailing `-`, exactly one extension `.html`
or `.jpg`); in particular the result is never empty. -/
theorem sanitizeURL_wellformed (parse : List Char → Option (List Char × List Char))
    (v : List Char) :
    (sanitizeURL parse v = "data:".toList ∨ IsSlug (sanitizeURL parse v)) ∧
    sanitizeURL parse v ≠ [] := by
  unfold sanitizeURL
  cases hp : parse v with
  | none => exact ⟨Or.inl rfl, by decide⟩
  | some pq =>
    obtain ⟨p, q⟩ := pq
    refine ⟨sanitizeURLAux_slug_or_data p q, ?_⟩
    show sanitizeURLAux p q ≠ []
    rcases sanitizeURLAux_slug_or_data p q with hd | hs
    · rw [hd]; decide
    · obtain ⟨stem, ext, heq, hne, -⟩ := hs
      rw [heq]
      intro hc
      exact hne (List.append_eq_nil.mp hc).1

/-! ## HTML sanitizer (sanitize/html.go)

`golang.org/x/net/html` nodes are embedded as `GNode`: `elem` for
`ElementNode` (tag, attributes in order, children in order), `text` for
`TextNode`, and `cont` for the remaining container nodes (`DocumentNode`
etc.), which carry no attributes but are walked like any node.

`CSSSanitizeAndExtractUrls` (sanitize/css.go) tokenizes with the external
`tdewolff/parse/v2/css` lexer; it is the `css` parameter below: it maps a
style string and the current URL set to the rewritten string and the grown
URL set, or to an error (the source propagates any non-EOF lexer error). -/

inductive GNode where
  | elem (tag : List Char) (attrs : List (List Char × List Char)) (children : List GNode)
  | text (data : List Char)
  | cont (children : List GNode)

inductive SanErr where
  | maxDepth
  | cssError
deriving DecidableEq

abbrev UrlSet := List (List Char)

abbrev CssFn := List Char → UrlSet → Except Unit (List Char × UrlSet)

/-- `urls[v] = struct{}{}` on a Go map used as a set: membership-preserving
insert. -/
def insertUrl (v : List Char) (urls : UrlSet) : UrlSet :=
  if v ∈ urls then urls else urls ++ [v]

/-- The URL attribute set of the `switch` in `HTMLSanitizeAndExtractUrls`. -/
def urlAttrKeys : List (List Char) :=
  ["src", "href", "action", "data", "poster", "formaction", "cite",
   "background", "ping", "longdesc", "icon", "srcdoc", "xlink:href",
   "codebase", "classid", "archive", "usemap", "profile", "manifest"].map
    String.toList

/-- ASCII whitespace recognised by `strings.TrimSpace`/`strings.Fields`
(`unicode.IsSpace` on the characters that occur here). -/
def isSpaceChar (c : Char) : Bool :=
  c == ' ' || c == '\t' || c == '\n' || c == '\r' || c == '\x0c' || c == '\x0b'

/-- `strings.TrimSpace`. -/
def goTrimSpace (l : List Char) : List Char :=
  ((l.dropWhile isSpaceChar).reverse.dropWhile isSpaceChar).reverse

/-- `strings.Fields`: maximal whitespace-free substrings. -/
def goFields (l : List Char) : List (List Char) :=
  (l.splitOnP isSpaceChar).filter (· ≠ [])

/-- The loop body of `sanitizeSrcset` over the comma-pieces. -/
def srcsetParts (f : List Char → List Char) :
    List (List Char) → UrlSet → List (List Char) × UrlSet
  | [], urls => ([], urls)
  | part :: rest, urls =>
    let part := goTrimSpace part
    if part = [] then srcsetParts f rest urls
    else
      match goFields part with
      | [] => srcsetParts f rest urls
      | u :: ds =>
        let vv := f u
        let urls := insertUrl vv urls
        let desc := if ds = [] then [] else ' ' :: List.intercalate " ".toList ds
        let (out, urls') := srcsetParts f rest urls
        ((vv ++ desc) :: out, urls')

/-- `sanitizeSrcset` (sanitize/html.go lines 93-122). -/
def sanitizeSrcset (f : List Char → List Char) (v : List Char) (urls : UrlSet) :
    List Char × UrlSet :=
  let (out, urls') := srcsetParts f (v.splitOn ',') urls
  (List.intercalate ", ".toList out, urls')

/-- One iteration of the attribute `switch` (`strings.ToLower(n.Attr[i].Key)`). -/
def sanitizeAttr (css : CssFn) (f : List Char → List Char)
    (kv : List Char × List Char) (urls : UrlSet) :
    Except SanErr ((List Char × List Char) × UrlSet) :=
  let key := kv.1.map goLower
  if key = "style".toList then
    match css kv.2 urls with
    | .error _ => .error .cssError
    | .ok (v, urls') => .ok ((kv.1, v), urls')
  else if key ∈ urlAttrKeys then
    let v := f kv.2
    .ok ((kv.1, v), insertUrl v urls)
  else if key = "srcset".toList ∨ key = "imagesrcset".toList then
    let (v, urls') := sanitizeSrcset f kv.2 urls
    .ok ((kv.1, v), urls')
  else .ok (kv, urls)

/-- The attribute loop `for i := range n.Attr`. -/
def sanitizeAttrs (css : CssFn) (f : List Char → List Char) :
    List (List Char × List Char) → UrlSet →
    Except SanErr (List (List Char × List Char) × UrlSet)
  | [], urls => .ok ([], urls)
  | kv :: rest, urls =>
    match sanitizeAttr css f kv urls with
    | .error e => .error e
    | .ok (kv', urls') =>
      match sanitizeAttrs css f rest urls' with
      | .error e => .error e
      | .ok (rest', urls'') => .ok (kv' :: rest', urls'')

def isTextNode : GNode → Bool
  | .text _ => true
  | .elem _ _ _ => false
  | .cont _ => false

/-- `sanitizeStyleNode`'s buffer: the concatenated data of all text
children, in order. -/
def styleText : List GNode → List Char
  | [] => []
  | .text d :: cs => d ++ styleText cs
  | _ :: cs => styleText cs

/-- `const maxDepth = 100`. -/
def maxTreeDepth : Nat := 100

mutual
/-- The recursive `walk` closure of `HTMLSanitizeAndExtractUrls`
(sanitize/html.go lines 45-91).

In the `<style>` branch, `sanitizeStyleNode` replaces the element's
children with the single text node holding the rewritten CSS (when it had
exactly one text child it is edited in place, which yields the same child
list as a value), and the subsequent child loop walks that replacement:
walking one text node only performs the depth check, which is written
inline here. -/
def walkNode (css : CssFn) (f : List Char → List Char) (n : GNode) (depth : Nat)
    (urls : UrlSet) : Except SanErr (GNode × UrlSet) :=
  if depth > maxTreeDepth then .error .maxDepth
  else
    match n with
    | .text d => .ok (.text d, urls)
    | .cont children =>
      match walkList css f children (depth + 1) urls with
      | .error e => .error e
      | .ok (cs', u') => .ok (.cont cs', u')
    | .elem tag attrs children =>
      match sanitizeAttrs css f attrs urls with
      | .error e => .error e
      | .ok (attrs', u1) =>
        if tag = "style".toList ∧ styleText children ≠ [] then
          match css (styleText children) u1 with
          | .error _ => .error .cssError
          | .ok (v, u2) =>
            if depth + 1 > maxTreeDepth then .error .maxDepth
            else .ok (.elem tag attrs' [GNode.text v], u2)
        else
          match walkList css f children (depth + 1) u1 with
          | .error e => .error e
          | .ok (cs', u2) => .ok (.elem tag attrs' cs', u2)

/-- `for c := n.FirstChild; c != nil; c = c.NextSibling { walk(c, depth+1) }`. -/
def walkList (css : CssFn) (f : List Char → List Char) (ns : List GNode)
    (depth : Nat) (urls : UrlSet) : Except SanErr (List GNode × UrlSet) :=
  match ns with
  | [] => .ok ([], urls)
  | n :: rest =>
    match walkNode css f n depth urls with
    | .error e => .error e
    | .ok (n', u') =>
      match walkList css f rest depth u' with
      | .error e => .error e
      | .ok (rest', u'') => .ok (n' :: rest', u'')
end

/-- `HTMLSanitizeAndExtractUrls(doc, urls, sanitizeURL)`: `walk(doc, 0)`. -/
def HTMLSanitizeAndExtractUrls (css : CssFn) (f : List Char → List Char)
    (doc : GNode) (urls : UrlSet) : Except SanErr (GNode × UrlSet) :=
  walkNode css f doc 0 urls

mutual
/-- Greatest depth of any node in the tree, the root at depth 0. -/
def nodeHeight : GNode → Nat
  | .text _ => 0
  | .elem _ _ cs => listHeight cs
  | .cont cs => listHeight cs

def listHeight : List GNode → Nat
  | [] => 0
  | c :: cs => max (1 + nodeHeight c) (listHeight cs)
end

mutual
/-- Every `<style>` element has only text children — true of any document
produced by the `golang.org/x/net/html` parser, which treats style content
as raw text. -/
def styleTextOnly : GNode → Bool
  | .text _ => true
  | .cont cs => styleTextOnlyList cs
  | .elem tag _ cs =>
    (if tag = "style".toList then cs.all isTextNode else true) && styleTextOnlyList cs

def styleTextOnlyList : List GNode → Bool
  | [] => true
  | c :: cs => styleTextOnly c && styleTextOnlyList cs
end

/-- The values of the attributes whose lower-cased name is in the URL
attribute set, in attribute order. -/
def urlAttrVals (attrs : List (List Char × List Char)) : List (List Char) :=
  attrs.filterMap (fun kv => if kv.1.map goLower ∈ urlAttrKeys then some kv.2 else none)

mutual
/-- All URL-attribute values of a tree, in walk order. -/
def collectUrlAttrVals : GNode → List (List Char)
  | .text _ => []
  | .cont cs => collectList cs
  | .elem _ attrs cs => urlAttrVals attrs ++ collectList cs

def collectList : List GNode → List (List Char)
  | [] => []
  | c :: cs => collectUrlAttrVals c ++ collectList cs
end

/-! ### Depth lemmas (C8) -/

theorem le_listHeight_of_mem (c : GNode) (cs : List GNode) (h : c ∈ cs) :
    1 + nodeHeight c ≤ listHeight cs := by
  induction cs with
  | nil => cases h
  | cons d t ih =>
    rcases List.mem_cons.mp h with h' | h'
    · rw [h', listHeight]; omega
    · have := ih h'
      rw [listHeight]; omega

theorem exists_attains_listHeight (cs : List GNode) (h : cs ≠ []) :
    ∃ c ∈ cs, listHeight cs = 1 + nodeHeight c := by
  induction cs with
  | nil => exact absurd rfl h
  | cons d t ih =>
    rw [listHeight]
    by_cases ht : t = []
    · subst ht
      exact ⟨d, List.mem_cons_self d [], by rw [listHeight]; omega⟩
    · obtain ⟨c, hc, hceq⟩ := ih ht
      by_cases hcmp : listHeight t ≤ 1 + nodeHeight d
      · exact ⟨d, List.mem_cons_self d t, by omega⟩
      · exact ⟨c, List.mem_cons_of_mem d hc, by omega⟩

theorem listHeight_pos (cs : List GNode) (h : cs ≠ []) : 1 ≤ listHeight cs := by
  cases cs with
  | nil => exact absurd rfl h
  | cons d t => rw [listHeight]; omega

theorem styleText_ne_nil (cs : List GNode) (h : styleText cs ≠ []) : cs ≠ [] := by
  intro hc; rw [hc] at h; exact h rfl

theorem nodeHeight_of_text (c : GNode) (h : isTextNode c = true) : nodeHeight c = 0 := by
  cases c with
  | text d => rfl
  | elem tag attrs cs => simp [isTextNode] at h
  | cont cs => simp [isTextNode] at h

theorem listHeight_all_text (cs : List GNode) (hne : cs ≠ [])
    (h : cs.all isTextNode = true) : listHeight cs = 1 := by
  induction cs with
  | nil => exact absurd rfl hne
  | cons d t ih =>
    rw [List.all_cons, Bool.and_eq_true] at h
    rw [listHeight, nodeHeight_of_text d h.1]
    by_cases ht : t = []
    · subst ht; rw [listHeight]; omega
    · rw [ih ht h.2]; omega

theorem styleTextOnlyList_mem (ns : List GNode) (h : styleTextOnlyList ns = true)
    (c : GNode) (hc : c ∈ ns) : styleTextOnly c = true := by
  induction ns with
  | nil => cases hc
  | cons d t ih =>
    rw [styleTextOnlyList, Bool.and_eq_true] at h
    rcases List.mem_cons.mp hc with h' | h'
    · rw [h']; exact h.1
    · exact ih h.2 h'

theorem sanitizeAttr_ok (css : CssFn) (f : List Char → List Char)
    (hcss : ∀ s u, ∃ r, css s u = .ok r)
    (kv : List Char × List Char) (u : UrlSet) :
    ∃ r, sanitizeAttr css f kv u = .ok r := by
  unfold sanitizeAttr
  by_cases h1 : kv.1.map goLower = "style".toList
  · rw [if_pos h1]
    obtain ⟨⟨v, u'⟩, hr⟩ := hcss kv.2 u
    rw [hr]
    exact ⟨_, rfl⟩
  · rw [if_neg h1]
    by_cases h2 : kv.1.map goLower ∈ urlAttrKeys
    · rw [if_pos h2]; exact ⟨_, rfl⟩
    · rw [if_neg h2]
      by_cases h3 : kv.1.map goLower = "srcset".toList ∨ kv.1.map goLower = "imagesrcset".toList
      · rw [if_pos h3]; exact ⟨_, rfl⟩
      · rw [if_neg h3]; exact ⟨_, rfl⟩

theorem sanitizeAttrs_ok (css : CssFn) (f : List Char → List Char)
    (hcss : ∀ s u, ∃ r, css s u = .ok r)
    (attrs : List (List Char × List Char)) (u : UrlSet) :
    ∃ r, sanitizeAttrs css f attrs u = .ok r := by
  induction attrs generalizing u with
  | nil => exact ⟨_, rfl⟩
  | cons kv rest ih =>
    obtain ⟨⟨kv', u'⟩, hr⟩ := sanitizeAttr_ok css f hcss kv u
    obtain ⟨⟨rest', u''⟩, hr'⟩ := ih u'
    exact ⟨(kv' :: rest', u''), by rw [sanitizeAttrs]; simp only [hr, hr']⟩

mutual
theorem walkNode_ok (css : CssFn) (f : List Char → List Char)
    (hcss : ∀ s u, ∃ r, css s u = .ok r)
    (n : GNode) (d : Nat) (u : UrlSet) (h : d + nodeHeight n ≤ maxTreeDepth) :
    ∃ r, walkNode css f n d u = .ok r := by
  cases n with
  | text dt =>
    refine ⟨(.text dt, u), ?_⟩
    rw [walkNode, if_neg (show ¬d > maxTreeDepth by omega)]
  | cont cs =>
    have hch : ∀ c ∈ cs, (d + 1) + nodeHeight c ≤ maxTreeDepth := by
      intro c hc
      have := le_listHeight_of_mem c cs hc
      have hn : nodeHeight (GNode.cont cs) = listHeight cs := rfl
      omega
    obtain ⟨⟨cs', u'⟩, hr⟩ := walkList_ok css f hcss cs (d + 1) u hch
    refine ⟨(.cont cs', u'), ?_⟩
    rw [walkNode, if_neg (show ¬d > maxTreeDepth by omega)]
    simp only [hr]
  | elem tag attrs cs =>
    obtain ⟨⟨attrs', u1⟩, ha⟩ := sanitizeAttrs_ok css f hcss attrs u
    by_cases hsty : tag = "style".toList ∧ styleText cs ≠ []
    · obtain ⟨⟨v, u2⟩, hc⟩ := hcss (styleText cs) u1
      have hne : cs ≠ [] := styleText_ne_nil cs hsty.2
      have h1 := listHeight_pos cs hne
      have hnh : nodeHeight (GNode.elem tag attrs cs) = listHeight cs := rfl
      refine ⟨(.elem tag attrs' [GNode.text v], u2), ?_⟩
      rw [walkNode, if_neg (show ¬d > maxTreeDepth by omega)]
      simp only [ha]
      rw [if_pos hsty]
      simp only [hc]
      rw [if_neg (show ¬d + 1 > maxTreeDepth by omega)]
    · have hch : ∀ c ∈ cs, (d + 1) + nodeHeight c ≤ maxTreeDepth := by
        intro c hc
        have := le_listHeight_of_mem c cs hc
        have hn : nodeHeight (GNode.elem tag attrs cs) = listHeight cs := rfl
        omega
      obtain ⟨⟨cs', u2⟩, hr⟩ := walkList_ok css f hcss cs (d + 1) u1 hch
      refine ⟨(.elem tag attrs' cs', u2), ?_⟩
      rw [walkNode, if_neg (show ¬d > maxTreeDepth by omega)]
      simp only [ha]
      rw [if_neg hsty]
      simp only [hr]
termination_by sizeOf n

theorem walkList_ok (css : CssFn) (f : List Char → List Char)
    (hcss : ∀ s u, ∃ r, css s u = .ok r)
    (ns : List GNode) (d : Nat) (u : UrlSet)
    (h : ∀ c ∈ ns, d + nodeHeight c ≤ maxTreeDepth) :
    ∃ r, walkList css f ns d u = .ok r := by
  cases ns with
  | nil => exact ⟨([], u), by rw [walkList]⟩
  | cons n rest =>
    obtain ⟨⟨n', u'⟩, hr⟩ := walkNode_ok css f hcss n d u (h n (List.mem_cons_self n rest))
    obtain ⟨⟨rest', u''⟩, hr'⟩ :=
      walkList_ok css f hcss rest d u' (fun c hc => h c (List.mem_cons_of_mem n hc))
    exact ⟨(n' :: rest', u''), by rw [walkList]; simp only [hr, hr']⟩
termination_by sizeOf ns
end

mutual
theorem walkNode_deep (css : CssFn) (f : List Char → List Char)
    (hcss : ∀ s u, ∃ r, css s u = .ok r)
    (n : GNode) (d : Nat) (u : UrlSet) (hsty : styleTextOnly n = true)
    (h : maxTreeDepth < d + nodeHeight n) :
    walkNode css f n d u = .error .maxDepth := by
  by_cases hd : d > maxTreeDepth
  · rw [walkNode.eq_def, if_pos hd]
  · cases n with
    | text dt =>
      simp only [nodeHeight] at h
      omega
    | cont cs =>
      have hcs : cs ≠ [] := by
        intro hc; subst hc
        simp only [nodeHeight, listHeight] at h
        omega
      obtain ⟨c, hc, hceq⟩ := exists_attains_listHeight cs hcs
      have hstl : styleTextOnlyList cs = true := by
        simpa only [styleTextOnly] using hsty
      have hlist : walkList css f cs (d + 1) u = .error .maxDepth :=
        walkList_deep css f hcss cs (d + 1) u hstl
          ⟨c, hc, by
            have hn : nodeHeight (GNode.cont cs) = listHeight cs := rfl
            omega⟩
      rw [walkNode, if_neg hd]
      simp only [hlist]
    | elem tag attrs cs =>
      obtain ⟨⟨attrs', u1⟩, ha⟩ := sanitizeAttrs_ok css f hcss attrs u
      have hunpack : (if tag = "style".toList then cs.all isTextNode else true) = true ∧
          styleTextOnlyList cs = true := by
        simpa only [styleTextOnly, Bool.and_eq_true] using hsty
      have hnh : nodeHeight (GNode.elem tag attrs cs) = listHeight cs := rfl
      by_cases hs : tag = "style".toList ∧ styleText cs ≠ []
      · obtain ⟨⟨v, u2⟩, hc2⟩ := hcss (styleText cs) u1
        have hne : cs ≠ [] := styleText_ne_nil cs hs.2
        have halltext : cs.all isTextNode = true := by
          have := hunpack.1; rwa [if_pos hs.1] at this
        have hl1 : listHeight cs = 1 := listHeight_all_text cs hne halltext
        rw [walkNode, if_neg hd]
        simp only [ha]
        rw [if_pos hs]
        simp only [hc2]
        rw [if_pos (show d + 1 > maxTreeDepth by omega)]
      · have hcs : cs ≠ [] := by
          intro hcnil; subst hcnil
          simp only [nodeHeight, listHeight] at h
          omega
        obtain ⟨c, hcmem, hceq⟩ := exists_attains_listHeight cs hcs
        have hlist := walkList_deep css f hcss cs (d + 1) u1 hunpack.2
          ⟨c, hcmem, by omega⟩
        rw [walkNode, if_neg hd]
        simp only [ha]
        rw [if_neg hs]
        simp only [hlist]
termination_by sizeOf n

theorem walkList_deep (css : CssFn) (f : List Char → List Char)
    (hcss : ∀ s u, ∃ r, css s u = .ok r)
    (ns : List GNode) (d : Nat) (u : UrlSet) (hsty : styleTextOnlyList ns = true)
    (hex : ∃ c ∈ ns, maxTreeDepth < d + nodeHeight c) :
    walkList css f ns d u = .error .maxDepth := by
  cases ns with
  | nil =>
    obtain ⟨c, hc, -⟩ := hex
    cases hc
  | cons n rest =>
    have h1 : styleTextOnly n = true ∧ styleTextOnlyList rest = true := by
      simpa only [styleTextOnlyList, Bool.and_eq_true] using hsty
    by_cases hn : maxTreeDepth < d + nodeHeight n
    · have hdn := walkNode_deep css f hcss n d u h1.1 hn
      rw [walkList]
      simp only [hdn]
    · obtain ⟨⟨n', u'⟩, hok⟩ := walkNode_ok css f hcss n d u (by omega)
      have hex' : ∃ c ∈ rest, maxTreeDepth < d + nodeHeight c := by
        obtain ⟨c, hc, hcd⟩ := hex
        rcases List.mem_cons.mp hc with h' | h'
        · subst h'; exact absurd hcd hn
        · exact ⟨c, h', hcd⟩
      have hrest := walkList_deep css f hcss rest d u' h1.2 hex'
      rw [walkList]
      simp only [hok, hrest]
termination_by sizeOf ns
end

/-- C8: on a parsed document (every `<style>` element has only text
children, as `x/net/html` guarantees) and with the CSS sanitizer never
failing (its `tdewolff` lexer reads an in-memory string, whose only
terminal condition is end-of-input), `HTMLSanitizeAndExtractUrls` returns
`MaxDepthExceeded` exactly when some node sits at depth greater than 100
(the root at depth 0), and any document of depth at most 100 is sanitized
fully without error. -/
theorem htmlSanitize_maxDepth_iff (css : CssFn) (f : List Char → List Char)
    (doc : GNode) (urls : UrlSet)
    (hcss : ∀ s u, ∃ r, css s u = .ok r)
    (hstyle : styleTextOnly doc = true) :
    (HTMLSanitizeAndExtractUrls css f doc urls = .error .maxDepth ↔
      maxTreeDepth < nodeHeight doc) ∧
    (nodeHeight doc ≤ maxTreeDepth →
      ∃ r, HTMLSanitizeAndExtractUrls css f doc urls = .ok r) := by
  constructor
  · constructor
    · intro herr
      by_contra hle
      obtain ⟨r, hok⟩ := walkNode_ok css f hcss doc 0 urls (by omega)
      rw [HTMLSanitizeAndExtractUrls] at herr
      rw [hok] at herr
      cases herr
    · intro hdeep
      exact walkNode_deep css f hcss doc 0 urls hstyle (by omega)
  · intro hle
    exact walkNode_ok css f hcss doc 0 urls (by omega)

/-- Trivial CSS sanitizer instance used to discharge the `css` parameter at
concrete inputs. -/
def cssNoop : CssFn := fun s u => .ok (s, u)

theorem htmlSanitize_maxDepth_iff_witness :
    (HTMLSanitizeAndExtractUrls cssNoop (fun v => v)
        (.cont [.elem "a".toList [] []]) [] = .error .maxDepth ↔
      maxTreeDepth < nodeHeight (.cont [.elem "a".toList [] []])) ∧
    (nodeHeight (GNode.cont [.elem "a".toList [] []]) ≤ maxTreeDepth →
      ∃ r, HTMLSanitizeAndExtractUrls cssNoop (fun v => v)
        (.cont [.elem "a".toList [] []]) [] = .ok r) :=
  htmlSanitize_maxDepth_iff cssNoop (fun v => v) (.cont [.elem "a".toList [] []]) []
    (fun s u => ⟨(s, u), rfl⟩) (by decide)

/-! ### URL-attribute rewriting (C4) -/

theorem mem_insertUrl_self (v : List Char) (u : UrlSet) : v ∈ insertUrl v u := by
  unfold insertUrl
  by_cases h : v ∈ u
  · rwa [if_pos h]
  · rw [if_neg h]
    exact List.mem_append_right _ (List.mem_singleton_self v)

theorem mem_insertUrl_of_mem (x v : List Char) (u : UrlSet) (h : x ∈ u) :
    x ∈ insertUrl v u := by
  unfold insertUrl
  by_cases hv : v ∈ u
  · rwa [if_pos hv]
  · rw [if_neg hv]
    exact List.mem_append_left _ h

theorem srcsetParts_mono (f : List Char → List Char) (parts : List (List Char))
    (u : UrlSet) : ∀ x ∈ u, x ∈ (srcsetParts f parts u).2 := by
  induction parts generalizing u with
  | nil => intro x hx; exact hx
  | cons part rest ih =>
    intro x hx
    rw [srcsetParts]
    dsimp only
    by_cases hp : goTrimSpace part = []
    · rw [if_pos hp]; exact ih u x hx
    · rw [if_neg hp]
      cases hf : goFields (goTrimSpace part) with
      | nil => exact ih u x hx
      | cons uu ds =>
        dsimp only
        exact ih (insertUrl (f uu) u) x (mem_insertUrl_of_mem x (f uu) u hx)

theorem sanitizeSrcset_mono (f : List Char → List Char) (v : List Char)
    (u : UrlSet) : ∀ x ∈ u, x ∈ (sanitizeSrcset f v u).2 :=
  srcsetParts_mono f (v.splitOn ',') u

theorem style_not_urlAttrKey : "style".toList ∉ urlAttrKeys := by decide

theorem sanitizeAttr_spec (css : CssFn) (f : List Char → List Char)
    (hmono : ∀ s uu r, css s uu = .ok r → ∀ x ∈ uu, x ∈ r.2)
    (kv kv' : List Char × List Char) (u u' : UrlSet)
    (h : sanitizeAttr css f kv u = .ok (kv', u')) :
    kv'.1 = kv.1 ∧ (∀ x ∈ u, x ∈ u') ∧
    (kv.1.map goLower ∈ urlAttrKeys → kv'.2 = f kv.2 ∧ f kv.2 ∈ u') := by
  unfold sanitizeAttr at h
  dsimp only at h
  by_cases h1 : kv.1.map goLower = "style".toList
  · rw [if_pos h1] at h
    cases hc : css kv.2 u with
    | error e =>
      rw [hc] at h
      exact absurd h (by simp)
    | ok p =>
      obtain ⟨v, u2⟩ := p
      rw [hc] at h
      have h' : (Except.ok ((kv.1, v), u2) : Except SanErr _) = .ok (kv', u') := h
      cases h'
      refine ⟨rfl, hmono _ _ _ hc, ?_⟩
      intro habs
      rw [h1] at habs
      exact absurd habs style_not_urlAttrKey
  · rw [if_neg h1] at h
    by_cases h2 : kv.1.map goLower ∈ urlAttrKeys
    · rw [if_pos h2] at h
      have h' : (Except.ok ((kv.1, f kv.2), insertUrl (f kv.2) u) :
          Except SanErr _) = .ok (kv', u') := h
      cases h'
      exact ⟨rfl, fun x hx => mem_insertUrl_of_mem x (f kv.2) u hx,
        fun _ => ⟨rfl, mem_insertUrl_self (f kv.2) u⟩⟩
    · rw [if_neg h2] at h
      by_cases h3 : kv.1.map goLower = "srcset".toList ∨
          kv.1.map goLower = "imagesrcset".toList
      · rw [if_pos h3] at h
        have h' : (Except.ok ((kv.1, (sanitizeSrcset f kv.2 u).1),
            (sanitizeSrcset f kv.2 u).2) : Except SanErr _) = .ok (kv', u') := h
        cases h'
        exact ⟨rfl, sanitizeSrcset_mono f kv.2 u, fun habs => absurd habs h2⟩
      · rw [if_neg h3] at h
        have h' : (Except.ok (kv, u) : Except SanErr _) = .ok (kv', u') := h
        cases h'
        exact ⟨rfl, fun x hx => hx, fun habs => absurd habs h2⟩

theorem urlAttrVals_cons (kv : List Char × List Char)
    (rest : List (List Char × List Char)) :
    urlAttrVals (kv :: rest) =
      (if kv.1.map goLower ∈ urlAttrKeys then [kv.2] else []) ++ urlAttrVals rest := by
  unfold urlAttrVals
  rw [List.filterMap_cons]
  by_cases h : kv.1.map goLower ∈ urlAttrKeys
  · rw [if_pos h, if_pos h]; rfl
  · rw [if_neg h, if_neg h]; rfl

theorem sanitizeAttrs_spec (css : CssFn) (f : List Char → List Char)
    (hmono : ∀ s uu r, css s uu = .ok r → ∀ x ∈ uu, x ∈ r.2)
    (attrs attrs' : List (List Char × List Char)) (u u' : UrlSet)
    (h : sanitizeAttrs css f attrs u = .ok (attrs', u')) :
    urlAttrVals attrs' = (urlAttrVals attrs).map f ∧
    (∀ x ∈ u, x ∈ u') ∧
    (∀ v ∈ (urlAttrVals attrs).map f, v ∈ u') := by
  induction attrs generalizing u attrs' with
  | nil =>
    have h' : (Except.ok (([], u)) :
        Except SanErr (List (List Char × List Char) × UrlSet)) = .ok (attrs', u') := h
    cases h'
    exact ⟨rfl, fun x hx => hx, by simp [urlAttrVals]⟩
  | cons kv rest ih =>
    rw [sanitizeAttrs] at h
    cases ha : sanitizeAttr css f kv u with
    | error e => rw [ha] at h; exact absurd h (by simp)
    | ok p =>
      obtain ⟨kv2, u2⟩ := p
      rw [ha] at h
      have h2 : (match sanitizeAttrs css f rest u2 with
          | Except.error e => (Except.error e : Except SanErr _)
          | Except.ok (rest', urls'') => Except.ok (kv2 :: rest', urls'')) =
          .ok (attrs', u') := h
      cases hr : sanitizeAttrs css f rest u2 with
      | error e =>
        rw [hr] at h2
        exact absurd h2 (by simp)
      | ok p2 =>
        obtain ⟨rest2, u3⟩ := p2
        rw [hr] at h2
        have h' : (Except.ok ((kv2 :: rest2, u3)) :
            Except SanErr (List (List Char × List Char) × UrlSet)) = .ok (attrs', u') := h2
        cases h'
        obtain ⟨hkey, hmono1, hurl⟩ := sanitizeAttr_spec css f hmono kv kv2 u u2 ha
        obtain ⟨heq, hmono2, hmem⟩ := ih rest2 u2 hr
        refine ⟨?_, fun x hx => hmono2 x (hmono1 x hx), ?_⟩
        · rw [urlAttrVals_cons, urlAttrVals_cons, heq, hkey, List.map_append]
          by_cases hk : kv.1.map goLower ∈ urlAttrKeys
          · rw [if_pos hk, if_pos hk, List.map_cons, List.map_nil, (hurl hk).1]
          · rw [if_neg hk, if_neg hk]; simp
        · intro v hv
          rw [urlAttrVals_cons, List.map_append] at hv
          rcases List.mem_append.mp hv with hv' | hv'
          · by_cases hk : kv.1.map goLower ∈ urlAttrKeys
            · rw [if_pos hk] at hv'
              simp only [List.map_cons, List.map_nil, List.mem_singleton] at hv'
              rw [hv']
              exact hmono2 _ (hurl hk).2
            · rw [if_neg hk] at hv'
              simp at hv'
          · exact hmem v hv'

theorem collectList_all_text (cs : List GNode) (h : cs.all isTextNode = true) :
    collectList cs = [] := by
  induction cs with
  | nil => rfl
  | cons c t ih =>
    rw [List.all_cons, Bool.and_eq_true] at h
    rw [collectList]
    cases c with
    | text d => rw [collectUrlAttrVals, ih h.2]; rfl
    | elem tag attrs cs2 => simp [isTextNode] at h
    | cont cs2 => simp [isTextNode] at h

mutual
theorem walkNode_collect (css : CssFn) (f : List Char → List Char)
    (hmono : ∀ s uu r, css s uu = .ok r → ∀ x ∈ uu, x ∈ r.2)
    (n n' : GNode) (d : Nat) (u u' : UrlSet) (hsty : styleTextOnly n = true)
    (h : walkNode css f n d u = .ok (n', u')) :
    collectUrlAttrVals n' = (collectUrlAttrVals n).map f ∧
    (∀ x ∈ u, x ∈ u') ∧
    (∀ v ∈ (collectUrlAttrVals n).map f, v ∈ u') := by
  by_cases hd : d > maxTreeDepth
  · rw [walkNode.eq_def, if_pos hd] at h
    exact absurd h (by simp)
  · cases n with
    | text dt =>
      rw [walkNode, if_neg hd] at h
      have h' : (Except.ok (GNode.text dt, u) : Except SanErr _) = .ok (n', u') := h
      cases h'
      exact ⟨rfl, fun x hx => hx, by simp [collectUrlAttrVals]⟩
    | cont cs =>
      rw [walkNode, if_neg hd] at h
      have hstl : styleTextOnlyList cs = true := by
        simpa only [styleTextOnly] using hsty
      cases hl : walkList css f cs (d + 1) u with
      | error e => rw [hl] at h; exact absurd h (by simp)
      | ok p =>
        obtain ⟨cs2, u2⟩ := p
        rw [hl] at h
        have h' : (Except.ok (GNode.cont cs2, u2) : Except SanErr _) = .ok (n', u') := h
        cases h'
        obtain ⟨heq, hm, hmem⟩ :=
          walkList_collect css f hmono cs cs2 (d + 1) u u' hstl hl
        exact ⟨heq, hm, hmem⟩
    | elem tag attrs cs =>
      rw [walkNode, if_neg hd] at h
      have hunpack : (if tag = "style".toList then cs.all isTextNode else true) = true ∧
          styleTextOnlyList cs = true := by
        simpa only [styleTextOnly, Bool.and_eq_true] using hsty
      cases ha : sanitizeAttrs css f attrs u with
      | error e => rw [ha] at h; exact absurd h (by simp)
      | ok p =>
        obtain ⟨attrs2, u1⟩ := p
        rw [ha] at h
        obtain ⟨haeq, ham, hamem⟩ := sanitizeAttrs_spec css f hmono attrs attrs2 u u1 ha
        have h2 : (if tag = "style".toList ∧ styleText cs ≠ [] then
            (match css (styleText cs) u1 with
             | Except.error _ => (Except.error SanErr.cssError : Except SanErr (GNode × UrlSet))
             | Except.ok (v, u2) =>
               if d + 1 > maxTreeDepth then Except.error SanErr.maxDepth
               else Except.ok (GNode.elem tag attrs2 [GNode.text v], u2))
          else
            (match walkList css f cs (d + 1) u1 with
             | Except.error e => Except.error e
             | Except.ok (cs', u2) => Except.ok (GNode.elem tag attrs2 cs', u2))) =
            .ok (n', u') := h
        by_cases hs : tag = "style".toList ∧ styleText cs ≠ []
        · rw [if_pos hs] at h2
          cases hc : css (styleText cs) u1 with
          | error e => rw [hc] at h2; exact absurd h2 (by simp)
          | ok p2 =>
            obtain ⟨v, u2⟩ := p2
            rw [hc] at h2
            have h3 : (if d + 1 > maxTreeDepth then
                (Except.error SanErr.maxDepth : Except SanErr (GNode × UrlSet))
                else Except.ok (GNode.elem tag attrs2 [GNode.text v], u2)) = .ok (n', u') := h2
            by_cases hd1 : d + 1 > maxTreeDepth
            · rw [if_pos hd1] at h3; exact absurd h3 (by simp)
            · rw [if_neg hd1] at h3
              have h4 : (Except.ok (GNode.elem tag attrs2 [GNode.text v], u2) :
                  Except SanErr _) = .ok (n', u') := h3
              cases h4
              have halltext : cs.all isTextNode = true := by
                have := hunpack.1; rwa [if_pos hs.1] at this
              have hcnil : collectList cs = [] := collectList_all_text cs halltext
              refine ⟨?_, fun x hx => hmono _ _ _ hc x (ham x hx), ?_⟩
              · show urlAttrVals attrs2 ++ collectList [GNode.text v] =
                  (urlAttrVals attrs ++ collectList cs).map f
                rw [hcnil, List.map_append, haeq]
                simp [collectList, collectUrlAttrVals]
              · intro w hw
                have hw' : w ∈ (urlAttrVals attrs ++ collectList cs).map f := hw
                rw [hcnil, List.map_append] at hw'
                rcases List.mem_append.mp hw' with hw'' | hw''
                · exact hmono _ _ _ hc w (hamem w hw'')
                · simp at hw''
        · rw [if_neg hs] at h2
          cases hl : walkList css f cs (d + 1) u1 with
          | error e => rw [hl] at h2; exact absurd h2 (by simp)
          | ok p2 =>
            obtain ⟨cs2, u2⟩ := p2
            rw [hl] at h2
            have h' : (Except.ok (GNode.elem tag attrs2 cs2, u2) :
                Except SanErr _) = .ok (n', u') := h2
            cases h'
            obtain ⟨hleq, hlm, hlmem⟩ :=
              walkList_collect css f hmono cs cs2 (d + 1) u1 u' hunpack.2 hl
            refine ⟨?_, fun x hx => hlm x (ham x hx), ?_⟩
            · show urlAttrVals attrs2 ++ collectList cs2 =
                (urlAttrVals attrs ++ collectList cs).map f
              rw [List.map_append, haeq, hleq]
            · intro w hw
              have hw' : w ∈ (urlAttrVals attrs ++ collectList cs).map f := hw
              rw [List.map_append] at hw'
              rcases List.mem_append.mp hw' with hw'' | hw''
              · exact hlm w (hamem w hw'')
              · exact hlmem w hw''
termination_by sizeOf n

theorem walkList_collect (css : CssFn) (f : List Char → List Char)
    (hmono : ∀ s uu r, css s uu = .ok r → ∀ x ∈ uu, x ∈ r.2)
    (ns ns' : List GNode) (d : Nat) (u u' : UrlSet)
    (hsty : styleTextOnlyList ns = true)
    (h : walkList css f ns d u = .ok (ns', u')) :
    collectList ns' = (collectList ns).map f ∧
    (∀ x ∈ u, x ∈ u') ∧
    (∀ v ∈ (collectList ns).map f, v ∈ u') := by
  cases ns with
  | nil =>
    rw [walkList] at h
    have h' : (Except.ok (([] : List GNode), u) : Except SanErr _) = .ok (ns', u') := h
    cases h'
    exact ⟨rfl, fun x hx => hx, by simp [collectList]⟩
  | cons n rest =>
    rw [walkList] at h
    have h1 : styleTextOnly n = true ∧ styleTextOnlyList rest = true := by
      simpa only [styleTextOnlyList, Bool.and_eq_true] using hsty
    cases hn : walkNode css f n d u with
    | error e => rw [hn] at h; exact absurd h (by simp)
    | ok p =>
      obtain ⟨n2, u2⟩ := p
      rw [hn] at h
      have h2 : (match walkList css f rest d u2 with
          | Except.error e => (Except.error e : Except SanErr (List GNode × UrlSet))
          | Except.ok (rest', u'') => Except.ok (n2 :: rest', u'')) = .ok (ns', u') := h
      cases hr : walkList css f rest d u2 with
      | error e => rw [hr] at h2; exact absurd h2 (by simp)
      | ok p2 =>
        obtain ⟨rest2, u3⟩ := p2
        rw [hr] at h2
        have h' : (Except.ok ((n2 :: rest2, u3)) :
            Except SanErr (List GNode × UrlSet)) = .ok (ns', u') := h2
        cases h'
        obtain ⟨e1, m1, mm1⟩ := walkNode_collect css f hmono n n2 d u u2 h1.1 hn
        obtain ⟨e2, m2, mm2⟩ := walkList_collect css f hmono rest rest2 d u2 u' h1.2 hr
        refine ⟨?_, fun x hx => m2 x (m1 x hx), ?_⟩
        · show collectUrlAttrVals n2 ++ collectList rest2 =
            (collectUrlAttrVals n ++ collectList rest).map f
          rw [List.map_append, e1, e2]
        · intro w hw
          have hw' : w ∈ (collectUrlAttrVals n ++ collectList rest).map f := hw
          rw [List.map_append] at hw'
          rcases List.mem_append.mp hw' with hw'' | hw''
          · exact m2 w (mm1 w hw'')
          · exact mm2 w hw''
termination_by sizeOf ns
end

/-- C4: after a successful `HTMLSanitizeAndExtractUrls` run on a parsed
document (style elements hold only text, as the parser guarantees), the
URL-named attributes of the output — `src, href, action, data, poster,
formaction, cite, background, ping, longdesc, icon, srcdoc, xlink:href,
codebase, classid, archive, usemap, profile, manifest`, matched
case-insensitively — are, position for position, the sanitizer `f` applied
to the original values, and every such rewritten value is in the collected
URL set.  The hypothesis on `css` records that the CSS pass only inserts
into the shared URL map (its writes are `urls[sanitized] = struct{}{}`). -/
theorem htmlSanitize_url_attrs (css : CssFn) (f : List Char → List Char)
    (hmono : ∀ s uu r, css s uu = .ok r → ∀ x ∈ uu, x ∈ r.2)
    (doc doc' : GNode) (urls urls' : UrlSet) (hsty : styleTextOnly doc = true)
    (h : HTMLSanitizeAndExtractUrls css f doc urls = .ok (doc', urls')) :
    collectUrlAttrVals doc' = (collectUrlAttrVals doc).map f ∧
    (∀ v ∈ (collectUrlAttrVals doc).map f, v ∈ urls') := by
  obtain ⟨heq, -, hmem⟩ :=
    walkNode_collect css f hmono doc doc' 0 urls urls' hsty h
  exact ⟨heq, hmem⟩

theorem htmlSanitize_url_attrs_witness :
    collectUrlAttrVals
        (GNode.cont [.elem "a".toList [("HREF".toList, "pic.jpg".toList)] []]) =
      (collectUrlAttrVals
        (GNode.cont [.elem "a".toList [("HREF".toList, "pic.png".toList)] []])).map
        (fun v => sanitizeURLAux v []) ∧
    (∀ v ∈ (collectUrlAttrVals
        (GNode.cont [.elem "a".toList [("HREF".toList, "pic.png".toList)] []])).map
        (fun v => sanitizeURLAux v []), v ∈ ["pic.jpg".toList]) :=
  htmlSanitize_url_attrs cssNoop (fun v => sanitizeURLAux v [])
    (fun _ _ _ hr x hx => by cases hr; exact hx)
    (GNode.cont [.elem "a".toList [("HREF".toList, "pic.png".toList)] []])
    (GNode.cont [.elem "a".toList [("HREF".toList, "pic.jpg".toList)] []])
    [] ["pic.jpg".toList] (by decide) rfl

/-! ## `generateHTML` link journaling (server/site.go lines 319-336)

After sanitization (and the external transformer), `generateHTML` iterates
the collected URL set; every value not already a key of `s.resources` is
written to the `links.txt` journal (one value per line) and inserted into
`resources` with size 0.  Go map iteration order is unspecified; the model
takes the URL set in list form.  Returns (journal additions in order,
updated resource keys). -/
def linksUpdate (resources : List (List Char)) : List (List Char) →
    List (List Char) × List (List Char)
  | [] => ([], resources)
  | u :: rest =>
    if u ∈ resources then linksUpdate resources rest
    else
      let (j, r) := linksUpdate (resources ++ [u]) rest
      (u :: j, r)

theorem linksUpdate_resources_mono (resources urls : List (List Char))
    (x : List Char) (h : x ∈ resources) : x ∈ (linksUpdate resources urls).2 := by
  induction urls generalizing resources with
  | nil => exact h
  | cons u rest ih =>
    rw [linksUpdate]
    by_cases hu : u ∈ resources
    · rw [if_pos hu]; exact ih resources h
    · rw [if_neg hu]
      exact ih (resources ++ [u]) (List.mem_append_left _ h)

theorem linksUpdate_adds (resources urls : List (List Char)) (v : List Char)
    (hv : v ∈ urls) (hnot : v ∉ resources) :
    v ∈ (linksUpdate resources urls).1 ∧ v ∈ (linksUpdate resources urls).2 := by
  induction urls generalizing resources with
  | nil => cases hv
  | cons u rest ih =>
    rw [linksUpdate]
    by_cases hu : u ∈ resources
    · rw [if_pos hu]
      rcases List.mem_cons.mp hv with h' | h'
      · exact absurd (h' ▸ hu) hnot
      · exact ih resources h' hnot
    · rw [if_neg hu]
      by_cases hvu : v = u
      · subst hvu
        refine ⟨List.mem_cons_self _ _, ?_⟩
        exact linksUpdate_resources_mono (resources ++ [v]) rest v
          (List.mem_append_right _ (List.mem_singleton_self v))
      · have h' : v ∈ rest := by
          rcases List.mem_cons.mp hv with h'' | h''
          · exact absurd h'' hvu
          · exact h''
        have hnot' : v ∉ resources ++ [u] := by
          intro hc
          rcases List.mem_append.mp hc with hc' | hc'
          · exact hnot hc'
          · exact hvu (List.mem_singleton.mp hc')
        obtain ⟨h1, h2⟩ := ih (resources ++ [u]) h' hnot'
        exact ⟨List.mem_cons_of_mem u h1, h2⟩

/-- C7 counterexample: for `x.pdf` (an unmapped extension) `sanitizeURL`
does return `data:`, but the sentinel is then inserted into the collected
URL set by the walker, and — not being a known resource — it is journaled
to `links.txt` and inserted into the resource map by `generateHTML`
exactly like any other collected value; moreover an unmapped-extension URL
with an empty sanitized stem (`!!.pdf`) returns `index.html`, not `data:`.
All three refute the claim's "dropped" behaviour. -/
theorem urlDrop_counterexample :
    sanitizeURL parseRel "x.pdf".toList = "data:".toList ∧
    HTMLSanitizeAndExtractUrls cssNoop (sanitizeURL parseRel)
        (GNode.cont [.elem "a".toList [("href".toList, "x.pdf".toList)] []]) [] =
      .ok (GNode.cont [.elem "a".toList [("href".toList, "data:".toList)] []],
        ["data:".toList]) ∧
    (linksUpdate ["index.html".toList, "not-found.html".toList]
      ["data:".toList]).1 = ["data:".toList] ∧
    "data:".toList ∈ (linksUpdate ["index.html".toList, "not-found.html".toList]
      ["data:".toList]).2 ∧
    sanitizeURL parseRel "!!.pdf".toList = "index.html".toList :=
  ⟨by decide, rfl, by decide, by decide, by decide⟩

/-- C7 amended: for every parsed URL with a non-empty path, a non-empty
sanitized stem and an extension outside both the image and the HTML sets,
`sanitizeURL` returns the `data:` sentinel; the sentinel is then treated
like any other collected URL: once it is in the collected set and not
already a known resource, `generateHTML` appends it to the `links.txt`
journal and inserts it into the resources map.  (URLs whose sanitized stem
is empty return `index.html` instead of `data:`.) -/
theorem urlDrop_amended (p q : List Char)
    (hne : p ≠ [])
    (hstem : trimDashes ((if q = [] then (extSplit (p.map goLower)).1
      else (extSplit (p.map goLower)).1 ++ '?' :: q.map goLower).map collapseChar) ≠ [])
    (hext : (extSplit (p.map goLower)).2 ∉
      (([".jpg", ".jpeg", ".png", ".gif", ".webp", ".svg", "", ".html", ".htm"] :
        List String).map String.toList)) :
    sanitizeURLAux p q = "data:".toList ∧
    ∀ resources urls : List (List Char),
      "data:".toList ∈ urls → "data:".toList ∉ resources →
      "data:".toList ∈ (linksUpdate resources urls).1 ∧
      "data:".toList ∈ (linksUpdate resources urls).2 := by
  constructor
  · unfold sanitizeURLAux
    rw [if_neg hne]
    dsimp only
    rw [if_neg hstem]
    rw [if_neg (by
      intro hc
      apply hext
      rcases hc with h | h | h | h | h | h <;> rw [h] <;> simp)]
    rw [if_neg (by
      intro hc
      apply hext
      rcases hc with h | h | h <;> rw [h] <;> simp)]
  · intro resources urls hv hnot
    exact linksUpdate_adds resources urls "data:".toList hv hnot

theorem urlDrop_amended_witness :
    sanitizeURLAux "x.pdf".toList [] = "data:".toList ∧
    "data:".toList ∈ (linksUpdate ["index.html".toList] ["data:".toList]).1 ∧
    "data:".toList ∈ (linksUpdate ["index.html".toList] ["data:".toList]).2 :=
  ⟨(urlDrop_amended "x.pdf".toList [] (by decide) (by decide) (by decide)).1,
   (urlDrop_amended "x.pdf".toList [] (by decide) (by decide) (by decide)).2
     ["index.html".toList] ["data:".toList] (by decide) (by decide)⟩

/-! ## Prompter (server/prompter.go)

The prompter owns the one-shot site outline.  The two `gemini.Text` calls
are external; they enter the model as `Except Unit String` answers (the
safety probe's answer and the outline answer).  The site directory is an
association list from file name to contents; `writeFileAtomic` at this
level is a map update (its path argument `outline.txt` contains no
separator, so rooting is not at issue here — see the `writeFileAtomicFS`
model for the path behaviour). -/

structure PromptSt where
  outline : String
deriving DecidableEq

abbrev SiteFS := List (String × String)

def fsLookup (fs : SiteFS) (name : String) : Option String :=
  (fs.find? (fun e => e.1 == name)).map (·.2)

def fsWrite (fs : SiteFS) (name contents : String) : SiteFS :=
  (fs.filter (fun e => !(e.1 == name))) ++ [(name, contents)]

/-- `genOutline` (server/prompter.go lines 1073-1100 of the combined file):
run the safety probe; any answer other than the exact text `SAFE` sets the
in-memory outline to the `UNSAFE` sentinel and returns nil; otherwise ask
for the outline and store it. -/
def genOutline (safetyAnswer outlineAnswer : Except Unit String) (st : PromptSt) :
    Except Unit PromptSt :=
  match safetyAnswer with
  | .error e => .error e
  | .ok safe =>
    if safe ≠ "SAFE" then .ok { st with outline := "UNSAFE" }
    else
      match outlineAnswer with
      | .error e => .error e
      | .ok o => .ok { st with outline := o }

/-- `initOutline` (server/prompter.go lines 1036-1071): if the outline is
already in memory, done; if `outline.txt` exists, read it verbatim;
otherwise run `genOutline` and then — unconditionally, whatever outline
`genOutline` produced — persist `p.outline` to `outline.txt` via
`writeFileAtomic`. -/
def initOutline (safetyAnswer outlineAnswer : Except Unit String) (fs : SiteFS)
    (st : PromptSt) : Except Unit (PromptSt × SiteFS) :=
  if st.outline ≠ "" then .ok (st, fs)
  else
    match fsLookup fs "outline.txt" with
    | some v => .ok ({ st with outline := v }, fs)
    | none =>
      match genOutline safetyAnswer outlineAnswer st with
      | .error e => .error e
      | .ok st' => .ok (st', fsWrite fs "outline.txt" st'.outline)

theorem fsLookup_fsWrite (fs : SiteFS) (name contents : String) :
    fsLookup (fsWrite fs name contents) name = some contents := by
  unfold fsLookup fsWrite
  rw [List.find?_append]
  have hnone : (fs.filter (fun e => !(e.1 == name))).find? (fun e => e.1 == name) = none := by
    rw [List.find?_eq_none]
    intro x hx
    have := List.of_mem_filter hx
    simp only [Bool.not_eq_true'] at this
    simp [this]
  rw [hnone]
  simp

/-- C1 counterexample: with no `outline.txt` on disk and the safety probe
answering `NO`, `initOutline` sets the outline to the `UNSAFE` sentinel
*and writes it to `outline.txt`* — the claim's "persists nothing" is
false. -/
theorem outline_sentinel_persisted_counterexample :
    initOutline (.ok "NO") (.ok "a markdown outline") [] { outline := "" } =
      .ok ({ outline := "UNSAFE" }, [("outline.txt", "UNSAFE")]) ∧
    fsLookup [("outline.txt", "UNSAFE")] "outline.txt" = some "UNSAFE" :=
  ⟨rfl, rfl⟩

/-- C1 amended: if the outline is uninitialized, `outline.txt` is absent,
and the safety probe's answer is not exactly `SAFE`, then the in-memory
outline becomes the sentinel `UNSAFE` and the sentinel is persisted:
`initOutline` writes `outline.txt` with contents `UNSAFE`. -/
theorem outline_sentinel_persisted (ans : String) (outlineAnswer : Except Unit String)
    (fs : SiteFS) (st : PromptSt)
    (h1 : st.outline = "") (h2 : fsLookup fs "outline.txt" = none)
    (h3 : ans ≠ "SAFE") :
    initOutline (.ok ans) outlineAnswer fs st =
      .ok ({ outline := "UNSAFE" }, fsWrite fs "outline.txt" "UNSAFE") ∧
    fsLookup (fsWrite fs "outline.txt" "UNSAFE") "outline.txt" = some "UNSAFE" := by
  refine ⟨?_, fsLookup_fsWrite fs "outline.txt" "UNSAFE"⟩
  have hgen : genOutline (.ok ans) outlineAnswer st = .ok { outline := "UNSAFE" } := by
    show (if ans ≠ "SAFE" then (Except.ok { st with outline := "UNSAFE" } : Except Unit PromptSt)
        else match outlineAnswer with
          | Except.error e => Except.error e
          | Except.ok o => Except.ok { st with outline := o }) =
      Except.ok { outline := "UNSAFE" }
    rw [if_pos h3]
  unfold initOutline
  rw [if_neg (by rw [h1]; simp), h2, hgen]

theorem outline_sentinel_persisted_witness :
    initOutline (.ok "NO") (.error ()) [("links.txt", "a.html\n")] { outline := "" } =
      .ok ({ outline := "UNSAFE" },
        fsWrite [("links.txt", "a.html\n")] "outline.txt" "UNSAFE") ∧
    fsLookup (fsWrite [("links.txt", "a.html\n")] "outline.txt" "UNSAFE")
      "outline.txt" = some "UNSAFE" :=
  outline_sentinel_persisted "NO" (.error ()) [("links.txt", "a.html\n")]
    { outline := "" } rfl rfl (by decide)

/-! ## Site state (server/site.go)

`defaultSite` carries `resources` (nil until first use), the sticky
`unsafe` flag, and `links` (which the source initializes to the empty
string and never reassigns; it does not interact with the claims and is
omitted).  `Handle` is `siteHandle`; the result type records which pair
the Go function returns: a file-serving `HandleFunc` (with nil
`GenerateFunc`), the two-phase stub+generator pair, or an error with both
functions nil.  The `stat` parameter is `root.Stat` restricted to sizes;
`lines` are the lines of `links.txt`. -/

structure SiteSt where
  resources : Option (List (List Char × Nat))
  isUnsafe : Bool

inductive HandleRes where
  | file (size : Nat)
  | generatePair
  | errUnsafe
  | errNotFound
deriving DecidableEq

def mapSet (m : List (List Char × Nat)) (k : List Char) (v : Nat) :
    List (List Char × Nat) :=
  m.filter (fun e => !(e.1 == k)) ++ [(k, v)]

def mapGet (m : List (List Char × Nat)) (k : List Char) : Option Nat :=
  (m.find? (fun e => e.1 == k)).map (·.2)

/-- `initResources` (server/site.go lines 232-273): seed the two reserved
slugs at size 0, then for every line of `links.txt` plus the two reserved
slugs again, trim it, skip it if empty, and record the `stat` size
(0 when the file is missing). -/
def initResources (stat : List Char → Option Nat) (lines : List (List Char)) :
    List (List Char × Nat) :=
  (lines ++ ["index.html".toList, "not-found.html".toList]).foldl
    (fun m line =>
      let line := goTrimSpace line
      if line = [] then m
      else mapSet m line ((stat line).getD 0))
    [("index.html".toList, 0), ("not-found.html".toList, 0)]

/-- `Handle` (server/site.go lines 86-101): the `unsafe` check first, then
lazy `initResources`, lookup, `NotFound` on a missing slug, the
file-serving handler when `size > 0`, and the stub+generator pair
otherwise. -/
def siteHandle (stat : List Char → Option Nat) (lines : List (List Char))
    (st : SiteSt) (slug : List Char) : HandleRes × SiteSt :=
  if st.isUnsafe then (.errUnsafe, st)
  else
    let m := match st.resources with
      | some m => m
      | none => initResources stat lines
    let st := { st with resources := some m }
    match mapGet m slug with
    | none => (.errNotFound, st)
    | some size => if size > 0 then (.file size, st) else (.generatePair, st)

/-- The site-state-changing operations, from the source: `Handle` (which
may lazily initialize `resources`), and the `GenerateFunc` body by
outcome — the prompter reporting `Unsafe` (`s.unsafe = true`,
server/site.go line 135), any other failure (no state change), or success
(new links inserted at size 0 during `generateHTML`, then the slug's size
recorded).  No operation ever writes `unsafe = false`. -/
inductive SiteOp where
  | handleOp (slug : List Char)
  | generateUnsafe
  | generateFail
  | generateOk (slug : List Char) (size : Nat) (newLinks : List (List Char))

def applySiteOp (stat : List Char → Option Nat) (lines : List (List Char)) :
    SiteOp → SiteSt → SiteSt
  | .handleOp slug, st => (siteHandle stat lines st slug).2
  | .generateUnsafe, st => { st with isUnsafe := true }
  | .generateFail, st => st
  | .generateOk slug size newLinks, st =>
    let m := st.resources.getD []
    let m := newLinks.foldl
      (fun m u => if (mapGet m u).isSome then m else mapSet m u 0) m
    { st with resources := some (mapSet m slug size) }

/-- C3: once a site's `unsafe` flag is set, every `Handle` call, for every
slug, returns the `Unsafe` error (and hence neither a ServeFunc nor a
GenerateFunc) without touching the state, and no site operation — no
`Handle` and no generation outcome — ever clears the flag. -/
theorem site_sticky_flag (stat : List Char → Option Nat) (lines : List (List Char))
    (st : SiteSt) (h : st.isUnsafe = true) :
    (∀ slug, siteHandle stat lines st slug = (.errUnsafe, st)) ∧
    (∀ op, (applySiteOp stat lines op st).isUnsafe = true) := by
  constructor
  · intro slug
    unfold siteHandle
    rw [if_pos h]
  · intro op
    cases op with
    | handleOp slug =>
      show (siteHandle stat lines st slug).2.isUnsafe = true
      unfold siteHandle
      rw [if_pos h]
      exact h
    | generateUnsafe => rfl
    | generateFail => exact h
    | generateOk slug size newLinks => exact h

theorem site_sticky_flag_witness :
    siteHandle (fun _ => none) [] ⟨none, true⟩ "index.html".toList =
      (.errUnsafe, ⟨none, true⟩) ∧
    (applySiteOp (fun _ => none) []
      (.handleOp "dogs.html".toList) ⟨none, true⟩).isUnsafe = true :=
  ⟨(site_sticky_flag (fun _ => none) [] ⟨none, true⟩ rfl).1 "index.html".toList,
   (site_sticky_flag (fun _ => none) [] ⟨none, true⟩ rfl).2 (.handleOp "dogs.html".toList)⟩

/-! ## Server single-flight (server/server.go)

`singleFlightGenerate` and the worker body returned by `Server.generate`
mutate `pending` only inside critical sections of the Server mutex; each
critical section is one atomic event of this transition system.  Slugs
are `String`s; waiters and final `HandleFunc` values are numbered
abstractly.  `pending` maps a slug to its ordered waiter list (`[]` =
absent, matching the map: the entry is created by the first append and
deleted whole); `active` counts workers assigned to a slug (submitted and
not yet detached); `delivered` records the `resultCh` sends as
(waiter, value) pairs (each `resultCh` has capacity 1, so `trySend`
succeeds, and the source panics otherwise).

Events, from the source:
* `join` — `p, ok := s.pending[slug]` found an entry (`ok`): append the
  waiter, no submission.
* `firstOk` — no entry: append the waiter (creating the entry) and submit
  the generator (`DoWork` returned true).
* `firstFail` — no entry and `DoWork` returned false: the entry added by
  the append is deleted inside the same critical section and the request
  fails with `WorkerPoolOverCapacity`: no net state change.
* `finish` — the worker's deferred tail: read `pending[slug]`, delete the
  entry, release the mutex, then send the same final value `v` to every
  detached waiter (on a panic, `v` is the 500 handler — still one value
  broadcast to all).
An event whose guard does not hold is a no-op: such an interleaving does
not occur in the program (the event labels which branch the critical
section took). -/

structure SFState where
  pending : String → List Nat
  active : String → Nat
  delivered : List (Nat × Nat)

def sfInit : SFState := ⟨fun _ => [], fun _ => 0, []⟩

def fupd {β : Type} (f : String → β) (a : String) (b : β) : String → β :=
  fun x => if x = a then b else f x

inductive SFEvent where
  | join (slug : String) (wid : Nat)
  | firstOk (slug : String) (wid : Nat)
  | firstFail (slug : String) (wid : Nat)
  | finish (slug : String) (v : Nat)

def sfApply : SFEvent → SFState → SFState
  | .join slug wid, s =>
    if s.pending slug ≠ [] then
      { s with pending := fupd s.pending slug (s.pending slug ++ [wid]) }
    else s
  | .firstOk slug wid, s =>
    if s.pending slug = [] then
      { s with pending := fupd s.pending slug [wid],
               active := fupd s.active slug (s.active slug + 1) }
    else s
  | .firstFail _ _, s => s
  | .finish slug v, s =>
    if s.active slug ≠ 0 then
      { pending := fupd s.pending slug [],
        active := fupd s.active slug (s.active slug - 1),
        delivered := s.delivered ++ (s.pending slug).map (fun w => (w, v)) }
    else s

def sfRun (tr : List SFEvent) (s : SFState) : SFState :=
  tr.foldl (fun s e => sfApply e s) s

theorem fupd_same {β : Type} (f : String → β) (a : String) (b : β) :
    fupd f a b a = b := by
  unfold fupd; rw [if_pos rfl]

theorem fupd_other {β : Type} (f : String → β) (a x : String) (b : β) (h : x ≠ a) :
    fupd f a b x = f x := by
  unfold fupd; rw [if_neg h]

/-- The single-flight invariant: a slug has an assigned worker exactly
when its pending entry exists, and then exactly one. -/
def SFInv (s : SFState) : Prop :=
  ∀ slug, s.active slug = if s.pending slug = [] then 0 else 1

theorem sfInv_init : SFInv sfInit := fun _ => rfl

theorem sfInv_step (e : SFEvent) (s : SFState) (h : SFInv s) :
    SFInv (sfApply e s) := by
  cases e with
  | join slug wid =>
    rw [sfApply]
    by_cases hp : s.pending slug ≠ []
    · rw [if_pos hp]
      intro sl
      by_cases hsl : sl = slug
      · subst hsl
        show s.active sl = if fupd s.pending sl (s.pending sl ++ [wid]) sl = [] then 0 else 1
        rw [fupd_same, if_neg (by simp)]
        have := h sl
        rwa [if_neg hp] at this
      · show s.active sl = if fupd s.pending slug (s.pending slug ++ [wid]) sl = [] then 0 else 1
        rw [fupd_other _ _ _ _ hsl]
        exact h sl
    · rw [if_neg hp]; exact h
  | firstOk slug wid =>
    rw [sfApply]
    by_cases hp : s.pending slug = []
    · rw [if_pos hp]
      intro sl
      by_cases hsl : sl = slug
      · subst hsl
        show fupd s.active sl (s.active sl + 1) sl =
          if fupd s.pending sl [wid] sl = [] then 0 else 1
        rw [fupd_same, fupd_same, if_neg (by simp)]
        have := h sl
        rw [if_pos hp] at this
        omega
      · show fupd s.active slug (s.active slug + 1) sl =
          if fupd s.pending slug [wid] sl = [] then 0 else 1
        rw [fupd_other _ _ _ _ hsl, fupd_other _ _ _ _ hsl]
        exact h sl
    · rw [if_neg hp]; exact h
  | firstFail slug wid => exact h
  | finish slug v =>
    rw [sfApply]
    by_cases ha : s.active slug ≠ 0
    · rw [if_pos ha]
      intro sl
      by_cases hsl : sl = slug
      · subst hsl
        show fupd s.active sl (s.active sl - 1) sl =
          if fupd s.pending sl [] sl = [] then 0 else 1
        rw [fupd_same, fupd_same, if_pos rfl]
        have := h sl
        by_cases hp : s.pending sl = []
        · rw [if_pos hp] at this; omega
        · rw [if_neg hp] at this; omega
      · show fupd s.active slug (s.active slug - 1) sl =
          if fupd s.pending slug [] sl = [] then 0 else 1
        rw [fupd_other _ _ _ _ hsl, fupd_other _ _ _ _ hsl]
        exact h sl
    · rw [if_neg ha]; exact h

theorem sfInv_run (tr : List SFEvent) (s : SFState) (h : SFInv s) :
    SFInv (sfRun tr s) := by
  induction tr generalizing s with
  | nil => exact h
  | cons e rest ih => exact ih (sfApply e s) (sfInv_step e s h)

/-- C2: along every event trace of the Server, (1) at most one generator
is assigned to any slug at any time (single-flight); (2) any `resultCh`
delivery added by a `finish` event for a slug carries that event's single
final value, so all waiters of the slug receive the same final
`HandleFunc` (the same bytes, or the same error's handler); and (3) every
waiter registered in the pending list at that moment does receive it. -/
theorem single_flight (tr : List SFEvent) :
    (∀ slug, (sfRun tr sfInit).active slug ≤ 1) ∧
    (∀ slug v w r,
      (w, r) ∈ (sfApply (.finish slug v) (sfRun tr sfInit)).delivered →
      (w, r) ∉ (sfRun tr sfInit).delivered → r = v) ∧
    (∀ slug v w, (sfRun tr sfInit).active slug ≠ 0 →
      w ∈ (sfRun tr sfInit).pending slug →
      (w, v) ∈ (sfApply (.finish slug v) (sfRun tr sfInit)).delivered) := by
  have hinv : SFInv (sfRun tr sfInit) := sfInv_run tr sfInit sfInv_init
  set s := sfRun tr sfInit with hs
  refine ⟨?_, ?_, ?_⟩
  · intro slug
    have := hinv slug
    by_cases hp : s.pending slug = []
    · rw [if_pos hp] at this; omega
    · rw [if_neg hp] at this; omega
  · intro slug v w r hmem hnot
    rw [sfApply] at hmem
    by_cases ha : s.active slug ≠ 0
    · rw [if_pos ha] at hmem
      have hmem' : (w, r) ∈ s.delivered ++ (s.pending slug).map (fun w => (w, v)) := hmem
      rcases List.mem_append.mp hmem' with h' | h'
      · exact absurd h' hnot
      · obtain ⟨w', _, heq⟩ := List.mem_map.mp h'
        exact (Prod.mk.injEq _ _ _ _ ▸ heq).2.symm
    · rw [if_neg ha] at hmem
      exact absurd hmem hnot
  · intro slug v w ha hw
    rw [sfApply]
    rw [if_pos ha]
    show (w, v) ∈ s.delivered ++ (s.pending slug).map (fun w => (w, v))
    exact List.mem_append_right _ (List.mem_map.mpr ⟨w, hw, rfl⟩)

theorem single_flight_witness :
    (sfRun [SFEvent.firstOk "dogs.html" 1, SFEvent.join "dogs.html" 2]
      sfInit).active "dogs.html" ≤ 1 ∧
    ((2 : Nat), (7 : Nat)) ∈ (sfApply (.finish "dogs.html" 7)
      (sfRun [SFEvent.firstOk "dogs.html" 1, SFEvent.join "dogs.html" 2]
        sfInit)).delivered :=
  ⟨(single_flight [SFEvent.firstOk "dogs.html" 1, SFEvent.join "dogs.html" 2]).1
      "dogs.html",
   (single_flight [SFEvent.firstOk "dogs.html" 1, SFEvent.join "dogs.html" 2]).2.2
      "dogs.html" 7 2 (by decide) (by decide)⟩

/-! ## Atomic write and path traversal (server/write.go, C9)

Paths are component lists.  `resolveInRoot` models path resolution
relative to an open `os.Root` handle (Go 1.24): components in order, `.`
and empty components skipped, `..` pops but can never ascend above the
opened directory — escaping paths are refused.  (Symlinks are not
modelled; the real `os.Root` additionally requires intermediate
directories to exist and refuses symlink escapes, so it accepts at most
what this model accepts.)  `joinClean` models
`filepath.Join(rootPath, p)`: `Clean` processes `..` purely lexically,
popping into — and above — the root's own components, clamping at the
filesystem root.

`FSt` is the relevant slice of the filesystem: files (path ↦ content tag)
and the set of existing directories.  `fsRename` models `os.Rename`,
which fails when the target path is an existing directory (POSIX
`EISDIR`); the ancestors of the site root are existing directories. -/

abbrev FPath := List String

def resolveInRoot (acc : FPath) : FPath → Option FPath
  | [] => some acc
  | c :: cs =>
    if c = "" ∨ c = "." then resolveInRoot acc cs
    else if c = ".." then
      if acc = [] then none else resolveInRoot acc.dropLast cs
    else resolveInRoot (acc ++ [c]) cs

def joinClean (base : FPath) : FPath → FPath
  | [] => base
  | c :: cs =>
    if c = "" ∨ c = "." then joinClean base cs
    else if c = ".." then joinClean base.dropLast cs
    else joinClean (base ++ [c]) cs

structure FSt where
  files : List (FPath × Nat)
  dirs : List FPath

/-- `root.OpenFile(p, os.O_CREATE|os.O_WRONLY|os.O_TRUNC, 0o644)` followed
by the write and close: the file exists at the resolved path with the
given contents. -/
def fsCreate (fs : FSt) (p : FPath) (c : Nat) : FSt :=
  { fs with files := fs.files.filter (fun e => !(e.1 == p)) ++ [(p, c)] }

/-- `os.Rename(src, tgt)`: fails when the target is an existing directory
or the source file does not exist; otherwise moves the file. -/
def fsRename (fs : FSt) (src tgt : FPath) : Option FSt :=
  if tgt ∈ fs.dirs then none
  else
    match fs.files.find? (fun e => e.1 == src) with
    | none => none
    | some e =>
      some { fs with files :=
        fs.files.filter (fun x => !(x.1 == src) && !(x.1 == tgt)) ++ [(tgt, e.2)] }

/-- `tmpSlug := slug + ".tmp"`: the Go string append attaches `.tmp` to
the last path component (`.tmp` contains no separator). -/
def tmpOf : FPath → FPath
  | [] => [".tmp"]
  | [c] => [c ++ ".tmp"]
  | c :: cs => c :: tmpOf cs

/-- `writeFileAtomic(root, rootPath, slug, v)` (server/write.go lines
10-39): open `{slug}.tmp` rooted at the open site directory
(create-or-truncate), write the bytes, close, then
`os.Rename(filepath.Join(rootPath, tmpSlug), filepath.Join(rootPath,
slug))` — a plain rename of the two lexically joined paths, not a rename
rooted at the open directory (the source carries a TODO for
`root.Rename`, which requires Go 1.25). -/
def writeFileAtomicFS (rootPath : FPath) (slug : FPath) (content : Nat)
    (fs : FSt) : Option FSt :=
  match resolveInRoot [] (tmpOf slug) with
  | none => none
  | some rtmp =>
    let fs1 := fsCreate fs (rootPath ++ rtmp) content
    fsRename fs1 (joinClean rootPath (tmpOf slug)) (joinClean rootPath slug)

theorem resolveInRoot_append (xs : FPath) (ys : FPath) (acc : FPath) :
    resolveInRoot acc (xs ++ ys) =
      (resolveInRoot acc xs).bind (fun b => resolveInRoot b ys) := by
  induction xs generalizing acc with
  | nil => rfl
  | cons c cs ih =>
    rw [List.cons_append, resolveInRoot]
    rw [show resolveInRoot acc (c :: cs) =
        (if c = "" ∨ c = "." then resolveInRoot acc cs
         else if c = ".." then
           if acc = [] then none else resolveInRoot acc.dropLast cs
         else resolveInRoot (acc ++ [c]) cs) from by rw [resolveInRoot]]
    by_cases h1 : c = "" ∨ c = "."
    · rw [if_pos h1, if_pos h1]
      exact ih acc
    · rw [if_neg h1, if_neg h1]
      by_cases h2 : c = ".."
      · rw [if_pos h2, if_pos h2]
        by_cases hacc : acc = []
        · rw [if_pos hacc, if_pos hacc]; rfl
        · rw [if_neg hacc, if_neg hacc]
          exact ih acc.dropLast
      · rw [if_neg h2, if_neg h2]
        exact ih (acc ++ [c])

theorem joinClean_append (xs : FPath) (ys : FPath) (base : FPath) :
    joinClean base (xs ++ ys) = joinClean (joinClean base xs) ys := by
  induction xs generalizing base with
  | nil => rfl
  | cons c cs ih =>
    rw [List.cons_append, joinClean]
    by_cases h1 : c = "" ∨ c = "."
    · rw [if_pos h1, show joinClean base (c :: cs) = joinClean base cs from by
        rw [joinClean, if_pos h1]]
      exact ih base
    · rw [if_neg h1]
      by_cases h2 : c = ".."
      · rw [if_pos h2, show joinClean base (c :: cs) = joinClean base.dropLast cs from by
          rw [joinClean, if_neg h1, if_pos h2]]
        exact ih base.dropLast
      · rw [if_neg h2, show joinClean base (c :: cs) = joinClean (base ++ [c]) cs from by
          rw [joinClean, if_neg h1, if_neg h2]]
        exact ih (base ++ [c])

/-- While resolution inside the root succeeds, the lexical join agrees
with it: the cleaned path is the root followed by the resolved suffix. -/
theorem joinClean_of_resolve (root : FPath) (acc : FPath) (xs : FPath) (r : FPath)
    (h : resolveInRoot acc xs = some r) :
    joinClean (root ++ acc) xs = root ++ r := by
  induction xs generalizing acc with
  | nil =>
    have : acc = r := by
      have h' : (some acc : Option FPath) = some r := h
      cases h'
      rfl
    rw [this]
    rfl
  | cons c cs ih =>
    rw [resolveInRoot] at h
    rw [joinClean]
    by_cases h1 : c = "" ∨ c = "."
    · rw [if_pos h1] at h ⊢
      exact ih acc h
    · rw [if_neg h1] at h ⊢
      by_cases h2 : c = ".."
      · rw [if_pos h2] at h ⊢
        by_cases hacc : acc = []
        · rw [if_pos hacc] at h
          cases h
        · rw [if_neg hacc] at h
          rw [List.dropLast_append_of_ne_nil root hacc]
          exact ih acc.dropLast h
      · rw [if_neg h2] at h ⊢
        rw [show root ++ acc ++ [c] = root ++ (acc ++ [c]) from by
          rw [List.append_assoc]]
        exact ih (acc ++ [c]) h

theorem tmpOf_concat (init : FPath) (l : String) :
    tmpOf (init ++ [l]) = init ++ [l ++ ".tmp"] := by
  induction init with
  | nil => rfl
  | cons c cs ih =>
    cases cs with
    | nil => rfl
    | cons d ds =>
      show c :: tmpOf ((d :: ds) ++ [l]) = c :: ((d :: ds) ++ [l ++ ".tmp"])
      rw [ih]

/-- If `{slug}.tmp` resolves inside the root, then the lexical rename
target `filepath.Join(rootPath, slug)` is either inside the root or
exactly the root's parent directory. -/
theorem joinClean_within_or_parent (root slug rt : FPath)
    (h : resolveInRoot [] (tmpOf slug) = some rt) :
    root <+: joinClean root slug ∨ joinClean root slug = root.dropLast := by
  rcases List.eq_nil_or_concat slug with hnil | ⟨init, l, hsl⟩
  · subst hnil
    left
    exact List.prefix_refl root
  · rw [List.concat_eq_append] at hsl
    subst hsl
    rw [tmpOf_concat, resolveInRoot_append] at h
    cases hri : resolveInRoot [] init with
    | none => rw [hri] at h; cases h
    | some ri =>
      rw [hri] at h
      have hj : joinClean root init = root ++ ri := by
        have := joinClean_of_resolve root [] init ri hri
        rwa [List.append_nil] at this
      rw [joinClean_append, hj]
      by_cases h1 : l = "" ∨ l = "."
      · left
        rw [show joinClean (root ++ ri) [l] = root ++ ri from by
          rw [joinClean, if_pos h1]; rfl]
        exact ⟨ri, rfl⟩
      · by_cases h2 : l = ".."
        · rw [show joinClean (root ++ ri) [l] = (root ++ ri).dropLast from by
            rw [joinClean, if_neg h1, if_pos h2]; rfl]
          cases hrieq : ri with
          | nil =>
            right
            rw [List.append_nil]
          | cons a as =>
            left
            rw [List.dropLast_append_of_ne_nil root (by simp)]
            exact ⟨(a :: as).dropLast, rfl⟩
        · left
          rw [show joinClean (root ++ ri) [l] = root ++ ri ++ [l] from by
            rw [joinClean, if_neg h1, if_neg h2]; rfl]
          exact ⟨ri ++ [l], by rw [List.append_assoc]⟩

/-- C9 counterexample: the final rename of `writeFileAtomic` is the plain
`os.Rename` of lexically joined paths, not a rename rooted at the open
site directory: at slug `../pwn` under site root `srv/sites/cats` the
code's rename target is `srv/sites/pwn`, outside the site root, whereas
the rooted resolution (`os.Root` semantics) refuses that path.  (In the
full function this slug errors earlier, at the rooted open of
`../pwn.tmp` — last conjunct.) -/
theorem rename_not_rooted_counterexample :
    joinClean ["srv", "sites", "cats"] ["..", "pwn"] = ["srv", "sites", "pwn"] ∧
    ¬(["srv", "sites", "cats"] <+: joinClean ["srv", "sites", "cats"] ["..", "pwn"]) ∧
    resolveInRoot [] ["..", "pwn"] = none ∧
    writeFileAtomicFS ["srv", "sites", "cats"] ["..", "pwn"] 1
      ⟨[], [["srv"], ["srv", "sites"]]⟩ = none := by
  refine ⟨rfl, ?_, rfl, rfl⟩
  intro hpre
  have := hpre.length_le
  have heq : joinClean ["srv", "sites", "cats"] ["..", "pwn"] =
      ["srv", "sites", "pwn"] := rfl
  rw [heq] at hpre
  have : (["srv", "sites", "cats"] : FPath) = ["srv", "sites", "pwn"] :=
    List.IsPrefix.eq_of_length hpre rfl
  simp at this

/-- C9 amended: the rename itself is not rooted (it is `os.Rename` of the
lexical joins), but no run of `writeFileAtomic` places a file outside the
site root: a slug whose `.tmp` path would escape is refused by the rooted
open before any rename, and in the one residual case (a slug whose final
`..` pops past the root) the lexical rename target is the root's parent —
an existing directory, on which the rename fails.  Hypotheses: the root
path is non-empty and every proper ancestor of the root exists as a
directory. -/
theorem writeFileAtomic_stays_in_root (rootPath slug : FPath) (content : Nat)
    (fs fs' : FSt)
    (hroot : rootPath ≠ [])
    (hanc : ∀ p : FPath, p <+: rootPath → p ≠ rootPath → p ∈ fs.dirs)
    (h : writeFileAtomicFS rootPath slug content fs = some fs') :
    ∀ e ∈ fs'.files, e.1 ∉ fs.files.map Prod.fst → rootPath <+: e.1 := by
  intro e he hnew
  rw [writeFileAtomicFS] at h
  cases hres : resolveInRoot [] (tmpOf slug) with
  | none => rw [hres] at h; cases h
  | some rtmp =>
    rw [hres] at h
    have h2 : fsRename (fsCreate fs (rootPath ++ rtmp) content)
        (joinClean rootPath (tmpOf slug)) (joinClean rootPath slug) = some fs' := h
    rw [fsRename] at h2
    by_cases htgt : joinClean rootPath slug ∈ (fsCreate fs (rootPath ++ rtmp) content).dirs
    · rw [if_pos htgt] at h2; cases h2
    · rw [if_neg htgt] at h2
      cases hfind : (fsCreate fs (rootPath ++ rtmp) content).files.find?
          (fun e => e.1 == joinClean rootPath (tmpOf slug)) with
      | none => rw [hfind] at h2; cases h2
      | some e0 =>
        rw [hfind] at h2
        have h3 : (some (FSt.mk
            ((fsCreate fs (rootPath ++ rtmp) content).files.filter
              (fun x => !(x.1 == joinClean rootPath (tmpOf slug)) &&
                !(x.1 == joinClean rootPath slug)) ++
              [(joinClean rootPath slug, e0.2)]) fs.dirs) : Option FSt) = some fs' := h2
        cases h3
        have htgtin : rootPath <+: joinClean rootPath slug := by
          rcases joinClean_within_or_parent rootPath slug rtmp hres with hin | hpar
          · exact hin
          · exfalso
            apply htgt
            rw [hpar]
            show rootPath.dropLast ∈ fs.dirs
            apply hanc
            · exact ⟨[rootPath.getLast hroot], List.dropLast_append_getLast hroot⟩
            · intro hc
              have := congrArg List.length hc
              rw [List.length_dropLast] at this
              have hlen : 0 < rootPath.length := List.length_pos.mpr hroot
              omega
        rcases List.mem_append.mp he with h4 | h4
        · have h5 := List.mem_of_mem_filter h4
          show rootPath <+: e.1
          rcases List.mem_append.mp (by
            have : e ∈ (fsCreate fs (rootPath ++ rtmp) content).files := h5
            exact this) with h6 | h6
          · exact absurd (List.mem_map_of_mem Prod.fst (List.mem_of_mem_filter h6)) hnew
          · rw [show e = (rootPath ++ rtmp, content) from List.mem_singleton.mp h6]
            exact ⟨rtmp, rfl⟩
        · rw [show e = (joinClean rootPath slug, e0.2) from List.mem_singleton.mp h4]
          exact htgtin

theorem writeFileAtomic_stays_in_root_witness :
    (["srv", "sites", "cats"] : FPath) <+:
      ((["srv", "sites", "cats", "page.html"], 5) : FPath × Nat).1 := by
  have hanc : ∀ p : FPath, p <+: (["srv", "sites", "cats"] : FPath) →
      p ≠ ["srv", "sites", "cats"] →
      p ∈ (FSt.dirs ⟨[], [[], ["srv"], ["srv", "sites"]]⟩) := by
    intro p hp hne
    obtain ⟨t, ht⟩ := hp
    cases p with
    | nil => decide
    | cons a p1 =>
      injection ht with h1 ht1
      subst h1
      cases p1 with
      | nil => decide
      | cons b p2 =>
        injection ht1 with h2 ht2
        subst h2
        cases p2 with
        | nil => decide
        | cons c p3 =>
          injection ht2 with h3 ht3
          subst h3
          cases p3 with
          | nil => exact absurd rfl hne
          | cons d p4 => exact absurd ht3 (by simp)
  exact writeFileAtomic_stays_in_root ["srv", "sites", "cats"] ["page.html"] 5
    ⟨[], [[], ["srv"], ["srv", "sites"]]⟩
    ⟨[(["srv", "sites", "cats", "page.html"], 5)], [[], ["srv"], ["srv", "sites"]]⟩
    (by decide) hanc rfl (["srv", "sites", "cats", "page.html"], 5)
    (List.mem_singleton_self _) (by decide)

end Ginprov
